import Mathlib

/-!
Verification development for the `neat` crate (NeuroEvolution of Augmenting
Topologies).  The Rust sources are shallowly embedded: `IndexMap` becomes an
insertion-ordered association list, `f32` values become `ℚ`, `u16` counters
become `Nat` with explicit `% 65536` where wraparound matters, and every call
that can panic in Rust is modelled as an `Option`-valued function returning
`none` on the panicking path.  Randomness is modelled by passing the drawn
values (indices, weights, coin flips) as explicit oracle arguments, with the
in-range guarantee of `gen_range` recovered either by hypotheses or by `%`.
-/

/-! ### Insertion-ordered map primitives (model of `indexmap::IndexMap`) -/

/-- First-match lookup in an association list (model of `IndexMap::get`). -/
def imLookup {K V : Type} [DecidableEq K] : List (K × V) → K → Option V
  | [], _ => none
  | (k, v) :: rest, q => if q = k then some v else imLookup rest q

/-- Key-membership test (model of `IndexMap::contains_key`). -/
def imContains {K V : Type} [DecidableEq K] (l : List (K × V)) (q : K) : Bool :=
  (imLookup l q).isSome

/-- In-place value replacement used by `IndexMap::insert` on a present key. -/
def imUpdate {K V : Type} [DecidableEq K] (l : List (K × V)) (q : K) (v : V) :
    List (K × V) :=
  l.map (fun p => if p.1 = q then (q, v) else p)

/-- Model of `IndexMap::insert`: replace the value in place when the key is
present (keeping its position), otherwise append at the end. -/
def imInsert {K V : Type} [DecidableEq K] (l : List (K × V)) (q : K) (v : V) :
    List (K × V) :=
  if imContains l q then imUpdate l q v else l ++ [(q, v)]

/-! ### Innovation registry (src/innovation.rs)

`InnovationCounter` keeps a `u16` counter and a `HashMap<(u16,u16), u16>`.
The counter arithmetic is `u16`, so the increment is modelled with an
explicit `% 65536`; `new(start)` computes `start - 1`, which in Rust debug
mode panics on `start = 0`, so theorems assume `1 ≤ start`. -/

structure InnovationCounter where
  count : Nat
  connections : List ((Nat × Nat) × Nat)
deriving DecidableEq

namespace InnovationCounter

/-- `InnovationCounter::new(start)`: counter starts at `start - 1`. -/
def new (start : Nat) : InnovationCounter := ⟨start - 1, []⟩

/-- `InnovationCounter::add(conn)`: return the recorded ID if present, else
increment the (u16) counter and record the fresh mapping.  Returns the issued
ID together with the updated registry. -/
def add (c : InnovationCounter) (conn : Nat × Nat) : Nat × InnovationCounter :=
  match imLookup c.connections conn with
  | some innovation => (innovation, c)
  | none =>
    let n := (c.count + 1) % 65536
    (n, ⟨n, (conn, n) :: c.connections⟩)

/-- `InnovationCounter::get(conn)`: pure lookup. -/
def get (c : InnovationCounter) (conn : Nat × Nat) : Option Nat :=
  imLookup c.connections conn

end InnovationCounter

/-- Issue IDs for a list of keys in order, threading the registry. -/
def addAll : List (Nat × Nat) → InnovationCounter → List Nat × InnovationCounter
  | [], c => ([], c)
  | k :: ks, c =>
    let (i, c1) := c.add k
    let (is, c2) := addAll ks c1
    (i :: is, c2)

/-! ### Settings (src/neat.rs `NeatSettings`) -/

structure NeatSettings where
  weight : ℚ
  weight_mutate : ℚ
  weight_max : ℚ
  weight_mutate_rate : ℚ
  add_connection_rate : ℚ
  add_node_rate : ℚ
  activation_mutate : ℚ
  activation_mutate_rate : ℚ
  connections_diff : ℚ
  weight_diff : ℚ
  species_threshold : ℚ
  feedforward : Bool
  reset_fitness : Bool
deriving DecidableEq

/-! ### Genome (src/genome.rs)

`f32` weights and activations are modelled as `ℚ`.  The random draws of
`rand::thread_rng()` (node indices, fresh weights, per-gene coin flips) are
passed in as explicit arguments. -/

structure Neuron where
  activation : ℚ
deriving DecidableEq

structure Connection where
  weight : ℚ
  enabled : Bool
deriving DecidableEq

structure Genome where
  inputs : Nat
  outputs : Nat
  nodes : List (Nat × Neuron)
  connections : List ((Nat × Nat) × Connection)
deriving DecidableEq

namespace Genome

/-- `Genome::new`: input nodes `0..inputs` then output nodes
`inputs..inputs+outputs`, all with default activation steepness `4.9`. -/
def new (inputs outputs : Nat) : Genome :=
  ⟨inputs, outputs, (List.range (inputs + outputs)).map (fun i => (i, ⟨49 / 10⟩)), []⟩

/-- `Genome::is_output`: positional test on a node-table index. -/
def is_output (g : Genome) (index : Nat) : Prop :=
  g.inputs ≤ index ∧ index < g.inputs + g.outputs

instance (g : Genome) (i : Nat) : Decidable (g.is_output i) := by
  unfold is_output; infer_instance

/-- `Genome::add_connection` with the two sampled indices and the sampled
fresh weight passed explicitly.  Returns `(flag, genome, registry)`; `none`
models the (unreachable for in-range indices) `unwrap` panic. -/
def add_connection (innovations : InnovationCounter) (settings : NeatSettings)
    (input output : Nat) (w : ℚ) (g : Genome) :
    Option (Bool × Genome × InnovationCounter) :=
  if input = output ∨ (g.is_output input ∧ g.is_output output) then
    some (false, g, innovations)
  else
    match g.nodes.get? input, g.nodes.get? output with
    | some inp, some outp =>
      let connection := (inp.1, outp.1)
      let reverse := (outp.1, inp.1)
      if settings.feedforward && imContains g.connections reverse then
        some (false, g, innovations)
      else
        match imLookup g.connections connection with
        | some info =>
          some (true,
            { g with connections := imInsert g.connections connection ⟨info.weight, true⟩ },
            innovations)
        | none =>
          some (true,
            { g with connections := imInsert g.connections connection ⟨w, true⟩ },
            (innovations.add connection).2)
    | _, _ => none

/-- `add_connection` with `gen_range(0, len)` and `gen_range(inputs, len)`
modelled by `%` on oracle values; `none` models the `gen_range` panic on an
empty range. -/
def add_connection_rng (innovations : InnovationCounter) (settings : NeatSettings)
    (r1 r2 : Nat) (w : ℚ) (g : Genome) :
    Option (Bool × Genome × InnovationCounter) :=
  if g.nodes.length ≤ g.inputs then none
  else
    add_connection innovations settings (r1 % g.nodes.length)
      (g.inputs + r2 % (g.nodes.length - g.inputs)) w g

/-- Disable (set `enabled := false`) the connection at a table index. -/
def disable_at : List ((Nat × Nat) × Connection) → Nat → List ((Nat × Nat) × Connection)
  | [], _ => []
  | p :: rest, 0 => (p.1, ⟨p.2.weight, false⟩) :: rest
  | p :: rest, n + 1 => p :: disable_at rest n

/-- `Genome::add_node` with the sampled connection index passed via `pick`
(taken `% len` to model `gen_range`).  `none` models the
`expect("Should not request invalid innovation")` panic. -/
def add_node (innovations : InnovationCounter) (pick : Nat) (g : Genome) :
    Option (Genome × InnovationCounter) :=
  if g.connections.length = 0 then some (g, innovations)
  else
    let idx := pick % g.connections.length
    match g.connections.get? idx with
    | none => none
    | some ci =>
      match innovations.get ci.1 with
      | none => none
      | some innovation =>
        let conns1 := disable_at g.connections idx
        let innov1 := (innovations.add (ci.1.1, innovation)).2
        let conns2 := imInsert conns1 (ci.1.1, innovation) ⟨1, true⟩
        let innov2 := (innov1.add (innovation, ci.1.2)).2
        let conns3 := imInsert conns2 (innovation, ci.1.2) ⟨ci.2.weight, true⟩
        some ({ g with nodes := imInsert g.nodes innovation ⟨49 / 10⟩,
                       connections := conns3 }, innov2)

/-- `Genome::mutate_connections`: the `k`-th *enabled* connection is perturbed
by `delta k` exactly when `dec k` (the model of `rng.gen::<f32>() <
settings.weight_mutate_rate`). -/
def mutate_connections_go (dec : Nat → Bool) (delta : Nat → ℚ) :
    Nat → List ((Nat × Nat) × Connection) → List ((Nat × Nat) × Connection)
  | _, [] => []
  | k, (key, c) :: rest =>
    if c.enabled then
      (key, if dec k then ⟨c.weight + delta k, c.enabled⟩ else c) ::
        mutate_connections_go dec delta (k + 1) rest
    else (key, c) :: mutate_connections_go dec delta k rest

def mutate_connections (dec : Nat → Bool) (delta : Nat → ℚ) (g : Genome) : Genome :=
  { g with connections := mutate_connections_go dec delta 0 g.connections }

/-- `Genome::mutate_nodes`: every node's activation perturbed when its draw
fires. -/
def mutate_nodes_go (dec : Nat → Bool) (delta : Nat → ℚ) :
    Nat → List (Nat × Neuron) → List (Nat × Neuron)
  | _, [] => []
  | k, (i, n) :: rest =>
    (i, if dec k then ⟨n.activation + delta k⟩ else n) :: mutate_nodes_go dec delta (k + 1) rest

def mutate_nodes (dec : Nat → Bool) (delta : Nat → ℚ) (g : Genome) : Genome :=
  { g with nodes := mutate_nodes_go dec delta 0 g.nodes }

/-- Oracle for all random draws consumed by one `Genome::mutate` call. -/
structure MutOracle where
  doAddConn : Bool
  acIn : Nat
  acOut : Nat
  acW : ℚ
  doAddNode : Bool
  anPick : Nat
  wcDec : Nat → Bool
  wcDelta : Nat → ℚ
  naDec : Nat → Bool
  naDelta : Nat → ℚ

/-- `Genome::mutate`: possibly `add_connection` (result flag ignored),
possibly `add_node`, then `mutate_connections` and `mutate_nodes`. -/
def mutate (mo : MutOracle) (innovations : InnovationCounter)
    (settings : NeatSettings) (g : Genome) : Option (Genome × InnovationCounter) :=
  match (if mo.doAddConn then
      (add_connection_rng innovations settings mo.acIn mo.acOut mo.acW g).map
        (fun r => (r.2.1, r.2.2))
    else some (g, innovations)) with
  | none => none
  | some r1 =>
    match (if mo.doAddNode then add_node r1.2 mo.anPick r1.1 else some r1) with
    | none => none
    | some r2 =>
      some (mutate_nodes mo.naDec mo.naDelta
        (mutate_connections mo.wcDec mo.wcDelta r2.1), r2.2)

/-- Insert an endpoint node into the crossover child from a parent, only when
absent; `none` models the `unwrap` panic on a parent missing the node. -/
def cross_insert_node (child : Genome) (src : Genome) (id : Nat) : Option Genome :=
  if imContains child.nodes id then some child
  else (imLookup src.nodes id).map (fun n => { child with nodes := imInsert child.nodes id n })

/-- The loop body of `Genome::cross`, iterating over `better`'s connections;
`flips k` models the `gen::<f32>() < 0.5` draw for the `k`-th gene. -/
def cross_go (flips : Nat → Bool) (better worse : Genome) :
    Nat → List ((Nat × Nat) × Connection) → Genome → Option Genome
  | _, [], child => some child
  | k, (key, info) :: rest, child =>
    if imContains worse.connections key && flips k then
      match cross_insert_node child worse key.1 with
      | none => none
      | some c1 =>
        match cross_insert_node c1 worse key.2 with
        | none => none
        | some c2 =>
          match imLookup worse.connections key with
          | none => none
          | some winfo =>
            cross_go flips better worse (k + 1) rest
              { c2 with connections := imInsert c2.connections key winfo }
    else
      match cross_insert_node child better key.1 with
      | none => none
      | some c1 =>
        match cross_insert_node c1 better key.2 with
        | none => none
        | some c2 =>
          cross_go flips better worse (k + 1) rest
            { c2 with connections := imInsert c2.connections key info }

/-- `Genome::cross`; `none` models the `assert_eq!` panic on mismatched
input/output counts (and the unreachable node-lookup panics). -/
def cross (flips : Nat → Bool) (better worse : Genome) : Option Genome :=
  if better.inputs = worse.inputs ∧ better.outputs = worse.outputs then
    cross_go flips better worse 0 better.connections (Genome.new better.inputs better.outputs)
  else none

/-- `Genome::same_species`, computed in exact `ℚ` arithmetic. -/
def same_species (settings : NeatSettings) (first second : Genome) : Bool :=
  let cw := first.connections.foldl
    (fun (acc : ℚ × ℚ) p =>
      match imLookup second.connections p.1 with
      | some s_info => (acc.1, acc.2 + |p.2.weight - s_info.weight|)
      | none => (acc.1 + 1, acc.2))
    (0, 0)
  let c_diff := cw.1 + second.connections.foldl
    (fun (acc : ℚ) p => if (imLookup first.connections p.1).isSome then acc else acc + 1) 0
  let size := max first.connections.length second.connections.length
  let connection_diff : ℚ :=
    if size ≠ 0 then (c_diff * settings.connections_diff) / (size : ℚ) else 0
  let weight_diff := cw.2 * settings.weight_diff
  decide (connection_diff + weight_diff < settings.species_threshold)

end Genome

/-! ### Network (src/network.rs)

The compiled phenotype.  The static structure (per-node activation and
incoming edge list) is separated from the mutable per-node `value`s, which
are modelled as a total function `Nat → ℚ` (all values start at `0.0`, and
`reset` restores that).  The transcendental `sigmoid(x, a) = 1/(1+exp(-a·x))`
is kept abstract as a parameter `sig : ℚ → ℚ → ℚ`; no claim depends on its
concrete shape.  The recursion of `eval` is modelled with an explicit fuel
argument: `none` means the fuel ran out (or an indexing panic), and the
termination theorems show the fuel can always be chosen large enough. -/

structure Edge where
  start : Nat
  weight : ℚ
deriving DecidableEq

structure Node where
  activation : ℚ
  inputs : List Edge
deriving DecidableEq

structure Network where
  nodes : List (Nat × Node)
  inputs : Nat
  outputs : Nat
deriving DecidableEq

/-- Pointwise update of the value store (one `node.value = v` assignment). -/
def updF (vals : Nat → ℚ) (k : Nat) (v : ℚ) : Nat → ℚ :=
  fun j => if j = k then v else vals j

namespace Network

/-- Append an incoming edge to the runtime node `e` (the
`node.inputs.push(...)` of `Network::new`). -/
def push_edge (l : List (Nat × Node)) (e : Nat) (ed : Edge) : List (Nat × Node) :=
  l.map (fun p => if p.1 = e then (p.1, ⟨p.2.activation, p.2.inputs ++ [ed]⟩) else p)

/-- Fold of `Network::new` over the enabled connections; `none` models the
`get_mut(end).unwrap()` panic when a target node is missing. -/
def new_go : List ((Nat × Nat) × Connection) → List (Nat × Node) → Option (List (Nat × Node))
  | [], acc => some acc
  | (key, c) :: rest, acc =>
    if imContains acc key.2 then new_go rest (push_edge acc key.2 ⟨key.1, c.weight⟩)
    else none

/-- `Network::new`: runtime nodes from genome nodes (value `0`), incoming
edges from the enabled connections. -/
def new (genome : Genome) : Option Network :=
  (new_go (genome.connections.filter (fun p => p.2.enabled))
      (genome.nodes.map (fun p => (p.1, ⟨p.2.activation, []⟩)))).map
    (fun nodes => ⟨nodes, genome.inputs, genome.outputs⟩)

/-- The `for edge in node.inputs` loop of `Network::eval`: accumulate
`value * weight`, marking an unsolved source as solved *before* recursing
into it via `recv` and writing the computed value back.  Returns the
accumulated sum together with the updated value store and solved set. -/
def go_edges (net : Network)
    (recv : Node → (Nat → ℚ) → List Nat → Option (ℚ × (Nat → ℚ) × List Nat)) :
    List Edge → (Nat → ℚ) → List Nat → Option (ℚ × (Nat → ℚ) × List Nat)
  | [], vals, solved => some (0, vals, solved)
  | e :: rest, vals, solved =>
    if e.start ∈ solved then
      match go_edges net recv rest vals solved with
      | some (acc, v2, s2) => some (vals e.start * e.weight + acc, v2, s2)
      | none => none
    else
      match imLookup net.nodes e.start with
      | none => none
      | some nd =>
        match recv nd vals (e.start :: solved) with
        | none => none
        | some (v, v1, s1) =>
          match go_edges net recv rest (updF v1 e.start v) s1 with
          | some (acc, v2, s2) => some (v * e.weight + acc, v2, s2)
          | none => none

/-- `Network::eval`, fuel-indexed.  `eval sig net fuel node vals solved`
computes `sigmoid(sum, node.activation)` after resolving the incoming
edges; `none` iff the fuel runs out (or a panic path is hit). -/
def eval (sig : ℚ → ℚ → ℚ) (net : Network) :
    Nat → Node → (Nat → ℚ) → List Nat → Option (ℚ × (Nat → ℚ) × List Nat)
  | 0 => fun _ _ _ => none
  | fuel + 1 => fun node vals solved =>
    match go_edges net (eval sig net fuel) node.inputs vals solved with
    | some (s, v1, s1) => some (sig s node.activation, v1, s1)
    | none => none

/-- The output loop of `Network::prop`: evaluate each output node id in
order, writing the result back into its value. -/
def prop_go (sig : ℚ → ℚ → ℚ) (net : Network) (fuel : Nat) :
    List Nat → (Nat → ℚ) → List Nat → Option (Nat → ℚ)
  | [], vals, _ => some vals
  | i :: rest, vals, solved =>
    match imLookup net.nodes i with
    | none => none
    | some node =>
      match eval sig net fuel node vals solved with
      | none => none
      | some (v, v1, s1) => prop_go sig net fuel rest (updF v1 i v) s1

/-- `Network::set_inputs` body: positional assignment of the supplied input
values to the first nodes in insertion order; `none` models the
`get_index_mut(i).unwrap()` panic. -/
def set_inputs_go (nodes : List (Nat × Node)) :
    Nat → List ℚ → (Nat → ℚ) → Option (Nat → ℚ)
  | _, [], vals => some vals
  | pos, x :: rest, vals =>
    match nodes.get? pos with
    | none => none
    | some p => set_inputs_go nodes (pos + 1) rest (updF vals p.1 x)

/-- `Network::prop`: assert the input length, set inputs, pre-solve the
input id range `0..inputs`, then evaluate the output ids
`inputs..inputs+outputs`. -/
def prop (sig : ℚ → ℚ → ℚ) (net : Network) (fuel : Nat) (inputs : List ℚ)
    (vals : Nat → ℚ) : Option (Nat → ℚ) :=
  if inputs.length = net.inputs then
    match set_inputs_go net.nodes 0 inputs vals with
    | none => none
    | some v1 =>
      prop_go sig net fuel (List.range' net.inputs net.outputs) v1 (List.range net.inputs)
  else none

/-- `Network::get_outputs`: the values of the `outputs` nodes positioned
immediately after the inputs, in insertion order. -/
def get_outputs (net : Network) (vals : Nat → ℚ) : List ℚ :=
  ((net.nodes.drop net.inputs).take net.outputs).map (fun p => vals p.1)

/-- `Network::reset`: every runtime value back to `0.0`. -/
def reset : Nat → ℚ :=
  fun _ => 0

end Network

/-! ### Population controller (src/neat.rs)

Fitness evaluation (`Network::run::<T>` against the external task) is the
out-of-scope boundary (§6 of the spec); it is modelled by an oracle
`fit : Genome → ℚ` giving the score an organism's compiled network obtains.
Coin flips and shuffles are likewise explicit oracles. -/

structure Organism where
  genome : Genome
  fitness : Option ℚ
deriving DecidableEq

def Organism.new (g : Genome) : Organism := ⟨g, none⟩

structure NeatState where
  size : Nat
  population : List Organism
  species_count : Nat
  innovations : InnovationCounter
  settings : NeatSettings
  best : Organism
deriving DecidableEq

/-- Rust's `PartialOrd` on `Option<f32>` restricted to comparable values:
`None` is below everything, `Some` compares by value. -/
def fit_le (a b : Option ℚ) : Prop :=
  match a, b with
  | none, _ => True
  | some _, none => False
  | some x, some y => x ≤ y

instance : DecidableRel fit_le := fun a b =>
  match a, b with
  | none, _ => isTrue trivial
  | some _, none => isFalse (fun h => h)
  | some x, some y => inferInstanceAs (Decidable (x ≤ y))

/-- Descending-fitness comparator used by `kill`'s
`sort_unstable_by(|a, b| b.fitness.partial_cmp(&a.fitness).unwrap())`. -/
def org_ge (a b : Organism) : Prop := fit_le b.fitness a.fitness

instance : DecidableRel org_ge := fun a b =>
  inferInstanceAs (Decidable (fit_le b.fitness a.fitness))

instance : IsTotal Organism org_ge where
  total a b := by
    unfold org_ge
    cases ha : a.fitness <;> cases hb : b.fitness <;> simp [fit_le]
    exact le_total _ _

instance : IsTrans Organism org_ge where
  trans a b c hab hbc := by
    unfold org_ge at *
    cases ha : a.fitness <;> cases hb : b.fitness <;> cases hc : c.fitness <;>
      simp_all [fit_le]
    exact le_trans hbc hab

namespace Neat

/-- Place an organism into the first species group whose representative
(first member) matches, else open a new group; `none` models the `group[0]`
panic on an (unreachable) empty group. -/
def place_org (settings : NeatSettings) (org : Organism) :
    List (List Organism) → Option (List (List Organism))
  | [] => some [[org]]
  | group :: groups =>
    match group.head? with
    | none => none
    | some h =>
      if Genome.same_species settings h.genome org.genome then
        some ((group ++ [org]) :: groups)
      else (place_org settings org groups).map (fun gs => group :: gs)

/-- The population loop of `Neat::speciate`: update the tracked best
(`fitness.unwrap()` comparisons; `none` models the unwrap panic on a missing
fitness) and greedily cluster into species groups. -/
def speciate_go (settings : NeatSettings) :
    List Organism → Organism → List (List Organism) → Option (Organism × List (List Organism))
  | [], best, groups => some (best, groups)
  | org :: rest, best, groups =>
    match org.fitness, best.fitness with
    | some f, some b =>
      match place_org settings org groups with
      | none => none
      | some groups1 => speciate_go settings rest (if b < f then org else best) groups1
    | _, _ => none

/-- `Neat::speciate`: re-evaluate the tracked best first when
`reset_fitness` is set, then cluster the population, recording the number of
species. -/
def speciate (fit : Genome → ℚ) (st : NeatState) :
    Option (NeatState × List (List Organism)) :=
  match speciate_go st.settings st.population
      (if st.settings.reset_fitness then { st.best with fitness := some (fit st.best.genome) }
       else st.best) [] with
  | none => none
  | some (best1, groups) =>
    some ({ st with species_count := groups.length, best := best1 }, groups)

/-- Descending sort by fitness (model of `sort_unstable_by` with the
reversed `partial_cmp`). -/
def sortDesc (group : List Organism) : List Organism :=
  List.insertionSort org_ge group

/-- The non-singleton branch of `Neat::kill`: sort descending by fitness and
`drain(len/2..)`, keeping the top half (rounded down). -/
def kill_group (group : List Organism) : List Organism :=
  (sortDesc group).take (group.length / 2)

/-- Per-group survivor selection of `Neat::kill`: singleton groups survive
on a coin flip, larger groups keep their `kill_group`. -/
def kill_select (flips : Nat → Bool) : Nat → List (List Organism) → List Organism
  | _, [] => []
  | k, group :: groups =>
    if group.length = 1 then
      (if flips k then group else []) ++ kill_select flips (k + 1) groups
    else kill_group group ++ kill_select flips (k + 1) groups

/-- `Neat::kill`: speciate, then rebuild the population from the per-group
survivors. -/
def kill (fit : Genome → ℚ) (flips : Nat → Bool) (st : NeatState) : Option NeatState :=
  (speciate fit st).map (fun r => { r.1 with population := kill_select flips 0 r.2 })

/-- `Neat::execute`: score every organism without a fitness (or every
organism under `reset_fitness`); the parallel fan-out has no shared state,
so it is modelled as a map. -/
def execute (fit : Genome → ℚ) (st : NeatState) : NeatState :=
  { st with population := st.population.map (fun org =>
      if org.fitness.isNone || st.settings.reset_fitness then
        { org with fitness := some (fit org.genome) }
      else org) }

/-- Oracle for the random draws of one `Neat::generate` call: the shuffle,
the per-crossover gene flips, and the per-clone mutation draws. -/
structure GenOracle where
  shuf : List Organism → List Organism
  crossFlips : Nat → Nat → Bool
  muts : Nat → Genome.MutOracle

/-- The crossover loop of `Neat::generate`: `population[i]` crossed with
`population[i+1]` on the *growing* vector; `none` models the out-of-bounds
indexing panic. -/
def cross_loop (o : GenOracle) : Nat → Nat → List Organism → Option (List Organism)
  | _, 0, pop => some pop
  | i, n + 1, pop =>
    match pop.get? i, pop.get? (i + 1) with
    | some a, some b =>
      match Genome.cross (o.crossFlips i) a.genome b.genome with
      | none => none
      | some child => cross_loop o (i + 1) n (pop ++ [Organism.new child])
    | _, _ => none

/-- The clone-and-mutate refill loop of `Neat::generate`. -/
def clone_loop (o : GenOracle) (settings : NeatSettings) :
    Nat → Nat → List Organism → InnovationCounter → Option (List Organism × InnovationCounter)
  | _, 0, pop, innov => some (pop, innov)
  | i, n + 1, pop, innov =>
    match pop.get? i with
    | none => none
    | some a =>
      match Genome.mutate (o.muts i) innov settings a.genome with
      | none => none
      | some r => clone_loop o settings (i + 1) n (pop ++ [Organism.new r.1]) r.2

/-- `Neat::generate`: shuffle, crossover up to `size*3/4`, then clone-mutate
up to `size`.  `none` models the indexing panics and the
`self.size - length` underflow (the non-completing paths). -/
def generate (o : GenOracle) (st : NeatState) : Option NeatState :=
  match (if (o.shuf st.population).length < st.size * 3 / 4 then
      cross_loop o 0 (st.size * 3 / 4 - (o.shuf st.population).length)
        (o.shuf st.population)
    else some (o.shuf st.population)) with
  | none => none
  | some pop1 =>
    if st.size < pop1.length then none
    else
      match clone_loop o st.settings 0 (st.size - pop1.length) pop1 st.innovations with
      | none => none
      | some r => some { st with population := r.1, innovations := r.2 }

/-- `Neat::step`: `execute`, `kill`, `generate`, then return the advanced
state together with the compiled network and fitness of the tracked best. -/
def step (fit : Genome → ℚ) (flips : Nat → Bool) (o : GenOracle) (st : NeatState) :
    Option (NeatState × Network × ℚ) :=
  match kill fit flips (execute fit st) with
  | none => none
  | some st2 =>
    match generate o st2 with
    | none => none
    | some st3 =>
      match Network.new st3.best.genome, st3.best.fitness with
      | some net, some f => some (st3, net, f)
      | _, _ => none

end Neat

/-! ### Concrete instances used by witnesses and counterexamples -/

/-- A small settings record (all rates/weights `1`, feedforward on). -/
def wSettings : NeatSettings := ⟨1, 1, 10, 1, 1, 1, 1, 1, 1, 1, 1, true, false⟩

/-- One input (id 0), one output (id 1), one hidden node (id 2), a single
enabled connection `0 → 1`. -/
def wGenome : Genome := ⟨1, 1, [(0, ⟨1⟩), (1, ⟨1⟩), (2, ⟨1⟩)], [((0, 1), ⟨1, true⟩)]⟩

def wInnov : InnovationCounter := ⟨2, [((0, 1), 2)]⟩

/-- Crossover parent with mutated activations on its input/output nodes. -/
def wBetter : Genome := ⟨1, 1, [(0, ⟨2⟩), (1, ⟨3⟩)], [((0, 1), ⟨1, true⟩)]⟩

/-- Second crossover parent, also with mutated activations and a different
weight on the shared gene. -/
def wWorse : Genome := ⟨1, 1, [(0, ⟨5⟩), (1, ⟨7⟩)], [((0, 1), ⟨2, true⟩)]⟩

/-- A species group of three scored organisms. -/
def wGroup : List Organism := [⟨wGenome, some 1⟩, ⟨wGenome, some 3⟩, ⟨wGenome, some 2⟩]

/-- Minimal genome: one input, one output, no connections. -/
def wG0 : Genome := ⟨1, 1, [(0, ⟨1⟩), (1, ⟨1⟩)], []⟩

/-- A population state of size 1 holding one unscored organism. -/
def wState : NeatState := ⟨1, [⟨wG0, none⟩], 0, ⟨2, []⟩, wSettings, ⟨wG0, some (-1000)⟩⟩

def wFit : Genome → ℚ := fun _ => 1

def wFlips : Nat → Bool := fun _ => true

/-- A mutation oracle that draws nothing (no structural or weight changes). -/
def wMut : Genome.MutOracle :=
  ⟨false, 0, 0, 0, false, 0, fun _ => false, fun _ => 0, fun _ => false, fun _ => 0⟩

def wOracle : Neat.GenOracle := ⟨id, fun _ _ => true, fun _ => wMut⟩

def wStepDefault : NeatState × Network × ℚ := (wState, ⟨[], 0, 0⟩, 0)

/-- Well-formedness of a genome relative to the population-wide input/output
counts `io` and the shared registry: matching io counts, at least one output,
all reserved nodes present, every connection endpoint in the node table, and
every connection registered.  These are the invariants `Neat` maintains for
every organism it creates. -/
def GenomeWF (io : Nat × Nat) (innov : InnovationCounter) (g : Genome) : Prop :=
  g.inputs = io.1 ∧ g.outputs = io.2 ∧ 1 ≤ g.outputs ∧
  g.inputs + g.outputs ≤ g.nodes.length ∧
  (∀ p ∈ g.connections, p.1.1 ∈ g.nodes.map Prod.fst ∧ p.1.2 ∈ g.nodes.map Prod.fst) ∧
  (∀ p ∈ g.connections, (innov.get p.1).isSome)

/-- Registry monotonicity: every recorded ID survives with its value. -/
def InnovMono (innov innov' : InnovationCounter) : Prop :=
  ∀ q i, innov.get q = some i → innov'.get q = some i

instance (io : Nat × Nat) (innov : InnovationCounter) (g : Genome) :
    Decidable (GenomeWF io innov g) := by
  unfold GenomeWF
  infer_instance

def wKillFlips : Nat → Bool := fun _ => false

/-- A size-1 population state whose single organism is already scored. -/
def wStateScored : NeatState := ⟨1, [⟨wG0, some 1⟩], 0, ⟨2, []⟩, wSettings, ⟨wG0, some (-1000)⟩⟩

/-- The state `kill` produces from `wStateScored` when the singleton group
loses its coin flip: an empty population. -/
def wKilled : NeatState := ⟨1, [], 1, ⟨2, []⟩, wSettings, ⟨wG0, some 1⟩⟩

/-- A 1-organism population far below the crossover cap (size 4). -/
def wStateA : NeatState := ⟨4, [⟨wG0, some 1⟩], 0, ⟨2, []⟩, wSettings, ⟨wG0, some 1⟩⟩

/-- A 2-organism population, enough survivors for the crossover loop. -/
def wStateB : NeatState :=
  ⟨4, [⟨wG0, some 1⟩, ⟨wG0, some 2⟩], 0, ⟨2, []⟩, wSettings, ⟨wG0, some 1⟩⟩

/-- The node ids of a network's table. -/
def keysOf (l : List (Nat × Node)) : List Nat := l.map Prod.fst

/-- Every edge references an existing node (no indexing panic in `eval`). -/
def NetWF (net : Network) : Prop :=
  ∀ p ∈ net.nodes, ∀ e ∈ p.2.inputs, e.start ∈ keysOf net.nodes

instance (net : Network) : Decidable (NetWF net) := by
  unfold NetWF
  infer_instance

/-- Number of node ids not yet marked solved — the quantity the
mark-before-recurse discipline strictly decreases at every recursive
`eval` call. -/
def unsolvedCount (net : Network) (solved : List Nat) : Nat :=
  ((keysOf net.nodes).filter (fun k => decide (k ∉ solved))).length

/-- A topological rank certifying the network acyclic: every edge goes from
lower to higher rank. -/
def rankOK (net : Network) (rank : Nat → Nat) : Prop :=
  ∀ p ∈ net.nodes, ∀ e ∈ p.2.inputs, rank e.start < rank p.1

instance (net : Network) (rank : Nat → Nat) : Decidable (rankOK net rank) := by
  unfold rankOK
  infer_instance

/-- The first `inputs + outputs` table positions hold exactly the ids
`0..inputs+outputs` — true of every network compiled from a genome built by
`Genome::new`, and what makes positional `set_inputs`/`get_outputs` agree
with the id-based `solved` marking of `prop`. -/
def ioAligned (net : Network) : Prop :=
  ∀ j < net.inputs + net.outputs, (net.nodes.get? j).map Prod.fst = some j

instance (net : Network) : Decidable (ioAligned net) := by
  unfold ioAligned
  infer_instance

/-- A cyclic genome: hidden nodes 2 and 3 feed each other (`2→3`, `3→2`)
and node 3 feeds the output — a true cycle `eval` will walk into. -/
def cGenomeCyc : Genome :=
  ⟨1, 1, [(0, ⟨1⟩), (1, ⟨1⟩), (2, ⟨1⟩), (3, ⟨1⟩)],
    [((3, 2), ⟨1, true⟩), ((2, 3), ⟨1, true⟩), ((3, 1), ⟨1, true⟩)]⟩

/-- The network compiled from `cGenomeCyc`. -/
def cNetCyc : Network :=
  ⟨[(0, ⟨1, []⟩), (1, ⟨1, [⟨3, 1⟩]⟩), (2, ⟨1, [⟨3, 1⟩]⟩), (3, ⟨1, [⟨2, 1⟩]⟩)], 1, 1⟩

/-- A stand-in for the abstract sigmoid parameter in concrete runs. -/
def cSig : ℚ → ℚ → ℚ := fun x a => x + a

/-- A small feedforward (acyclic) network: input 0 → hidden 2 → output 1. -/
def cNetFF : Network :=
  ⟨[(0, ⟨1, []⟩), (1, ⟨1, [⟨2, 1⟩]⟩), (2, ⟨1, [⟨0, 1⟩]⟩)], 1, 1⟩

/-- A topological rank for `cNetFF`. -/
def cRank : Nat → Nat := fun k => if k = 0 then 0 else if k = 2 then 1 else 2

/-- Relation between the results of two `eval` runs from value stores that
agree on the solved ids of rank below `R`: equal returned value, equal
solved sets, solved only grows, untouched values framed per run, and newly
solved ids carry equal values of rank below `R`. -/
def CongOut (rank : Nat → Nat) (solved : List Nat) (R : Nat)
    (r1 r2 : ℚ × (Nat → ℚ) × List Nat) (v1 v2 : Nat → ℚ) : Prop :=
  r1.1 = r2.1 ∧ r1.2.2 = r2.2.2 ∧ (∀ k ∈ solved, k ∈ r1.2.2) ∧
  (∀ k, (k ∈ solved ∨ k ∉ r1.2.2) → r1.2.1 k = v1 k) ∧
  (∀ k, (k ∈ solved ∨ k ∉ r2.2.2) → r2.2.1 k = v2 k) ∧
  (∀ k ∈ r1.2.2, k ∉ solved → (r1.2.1 k = r2.2.1 k ∧ rank k < R))

/-! ### LEMMAS AND CLAIM THEOREMS -/

@[simp] theorem imLookup_nil {K V : Type} [DecidableEq K] (q : K) :
    imLookup ([] : List (K × V)) q = none := rfl

@[simp] theorem imLookup_cons {K V : Type} [DecidableEq K]
    (k : K) (v : V) (rest : List (K × V)) (q : K) :
    imLookup ((k, v) :: rest) q = if q = k then some v else imLookup rest q := rfl

@[simp] theorem imUpdate_nil {K V : Type} [DecidableEq K] (q : K) (v : V) :
    imUpdate ([] : List (K × V)) q v = [] := rfl

@[simp] theorem imUpdate_cons {K V : Type} [DecidableEq K]
    (k0 : K) (v0 : V) (rest : List (K × V)) (q : K) (v : V) :
    imUpdate ((k0, v0) :: rest) q v =
      (if k0 = q then (q, v) else (k0, v0)) :: imUpdate rest q v := rfl

theorem imLookup_eq_none {K V : Type} [DecidableEq K] (l : List (K × V)) (q : K)
    (h : ∀ p ∈ l, p.1 ≠ q) : imLookup l q = none := by
  induction l with
  | nil => rfl
  | cons p rest ih =>
    obtain ⟨k, v⟩ := p
    have hk : ¬(q = k) := fun hq => h (k, v) (List.mem_cons_self _ _) hq.symm
    simp only [imLookup, if_neg hk]
    exact ih (fun p hp => h p (List.mem_cons_of_mem _ hp))

theorem imLookup_mem {K V : Type} [DecidableEq K] {l : List (K × V)} {q : K} {v : V}
    (h : imLookup l q = some v) : (q, v) ∈ l := by
  induction l with
  | nil => simp [imLookup] at h
  | cons p rest ih =>
    obtain ⟨k, w⟩ := p
    by_cases hq : q = k
    · simp only [imLookup, if_pos hq] at h
      obtain rfl := hq
      obtain rfl : w = v := by simpa using h
      exact List.mem_cons_self _ _
    · simp only [imLookup, if_neg hq] at h
      exact List.mem_cons_of_mem _ (ih h)

theorem imLookup_isSome_of_mem_keys {K V : Type} [DecidableEq K]
    {l : List (K × V)} {q : K} (h : q ∈ l.map Prod.fst) :
    (imLookup l q).isSome := by
  induction l with
  | nil => simp at h
  | cons p rest ih =>
    obtain ⟨k, v⟩ := p
    by_cases hq : q = k
    · simp [imLookup, hq]
    · simp only [List.map_cons, List.mem_cons] at h
      rcases h with h | h
      · exact absurd h hq
      · simpa [imLookup, hq] using ih h

theorem imLookup_imUpdate_ne {K V : Type} [DecidableEq K]
    (l : List (K × V)) (q k : K) (v : V) (hne : q ≠ k) :
    imLookup (imUpdate l k v) q = imLookup l q := by
  induction l with
  | nil => rfl
  | cons p rest ih =>
    obtain ⟨k0, v0⟩ := p
    by_cases hk0 : k0 = k
    · subst hk0
      simp only [imUpdate, List.map_cons, if_pos rfl] at ih ⊢
      simp only [imLookup, if_neg hne]
      exact ih
    · simp only [imUpdate, List.map_cons, if_neg hk0] at ih ⊢
      by_cases hq : q = k0
      · simp [imLookup, hq]
      · simp only [imLookup, if_neg hq]
        exact ih

theorem imLookup_append_single_ne {K V : Type} [DecidableEq K]
    (l : List (K × V)) (q k : K) (v : V) (hne : q ≠ k) :
    imLookup (l ++ [(k, v)]) q = imLookup l q := by
  induction l with
  | nil => simp [imLookup, if_neg hne]
  | cons p rest ih =>
    obtain ⟨k0, v0⟩ := p
    by_cases hq : q = k0
    · simp [imLookup, hq]
    · simp only [List.cons_append, imLookup, if_neg hq]
      exact ih

/-- Looking up a key distinct from the inserted one is unchanged. -/
theorem imLookup_imInsert_ne {K V : Type} [DecidableEq K]
    (l : List (K × V)) (q k : K) (v : V) (hne : q ≠ k) :
    imLookup (imInsert l k v) q = imLookup l q := by
  unfold imInsert
  by_cases hc : imContains l k
  · simp only [if_pos hc]
    exact imLookup_imUpdate_ne l q k v hne
  · simp only [if_neg hc]
    exact imLookup_append_single_ne l q k v hne

/-- With first-match lookup and duplicate-free keys, every entry carrying the
looked-up key holds the looked-up value. -/
theorem imLookup_unique {K V : Type} [DecidableEq K]
    {l : List (K × V)} {k : K} {v : V}
    (hnd : (l.map Prod.fst).Nodup) (h : imLookup l k = some v) :
    ∀ p ∈ l, p.1 = k → p.2 = v := by
  induction l with
  | nil => intro p hp; simp at hp
  | cons p0 rest ih =>
    obtain ⟨k0, v0⟩ := p0
    simp only [List.map_cons, List.nodup_cons] at hnd
    intro p hp hpk
    rcases List.mem_cons.mp hp with rfl | hp
    · have hk : k = k0 := hpk.symm ▸ rfl
      rw [imLookup_cons, if_pos hk] at h
      simpa using h
    · have hk0 : ¬(k = k0) := by
        intro hkk
        apply hnd.1
        rw [hkk] at hpk
        exact hpk ▸ List.mem_map_of_mem Prod.fst hp
      rw [imLookup_cons, if_neg hk0] at h
      exact ih hnd.2 h p hp hpk

/-- Inserting the value a key already holds leaves the list unchanged,
provided keys are not duplicated. -/
theorem imInsert_self {K V : Type} [DecidableEq K]
    (l : List (K × V)) (k : K) (v : V)
    (hnd : (l.map Prod.fst).Nodup) (h : imLookup l k = some v) :
    imInsert l k v = l := by
  have hc : imContains l k := by simp [imContains, h]
  unfold imInsert
  simp only [if_pos hc]
  unfold imUpdate
  have : ∀ p ∈ l, (if p.1 = k then (k, v) else p) = id p := by
    intro p hp
    by_cases hpk : p.1 = k
    · obtain ⟨pk, pv⟩ := p
      have := imLookup_unique hnd h (pk, pv) hp hpk
      simp only at hpk this
      simp [if_pos hpk, hpk, this]
    · simp [if_neg hpk]
  rw [List.map_congr_left this, List.map_id]

theorem imInsert_length_ge {K V : Type} [DecidableEq K]
    (l : List (K × V)) (k : K) (v : V) :
    l.length ≤ (imInsert l k v).length := by
  unfold imInsert imUpdate
  by_cases hc : imContains l k <;> simp [hc]

theorem imLookup_imUpdate_self {K V : Type} [DecidableEq K]
    (l : List (K × V)) (q : K) (v : V) (hc : (imLookup l q).isSome) :
    imLookup (imUpdate l q v) q = some v := by
  induction l with
  | nil => simp at hc
  | cons p rest ih =>
    obtain ⟨k0, v0⟩ := p
    by_cases hk : q = k0
    · subst hk
      simp
    · have hk0 : ¬(k0 = q) := fun h => hk h.symm
      simp only [imLookup_cons, if_neg hk] at hc
      simp only [imUpdate_cons, if_neg hk0, imLookup_cons, if_neg hk]
      exact ih hc

theorem imLookup_append_single_self {K V : Type} [DecidableEq K]
    (l : List (K × V)) (q : K) (v : V) (hn : imLookup l q = none) :
    imLookup (l ++ [(q, v)]) q = some v := by
  induction l with
  | nil => simp
  | cons p rest ih =>
    obtain ⟨k0, v0⟩ := p
    by_cases hk : q = k0
    · rw [imLookup_cons, if_pos hk] at hn
      cases hn
    · rw [imLookup_cons, if_neg hk] at hn
      rw [List.cons_append, imLookup_cons, if_neg hk]
      exact ih hn

theorem imLookup_imInsert_self {K V : Type} [DecidableEq K]
    (l : List (K × V)) (k : K) (v : V) :
    imLookup (imInsert l k v) k = some v := by
  unfold imInsert
  by_cases hc : imContains l k
  · simp only [if_pos hc]
    exact imLookup_imUpdate_self l k v (by simpa [imContains] using hc)
  · simp only [if_neg hc]
    refine imLookup_append_single_self l k v ?_
    unfold imContains at hc
    exact Option.not_isSome_iff_eq_none.mp (by simpa using hc)

/-- Registered IDs survive any later `add`, with the same value. -/
theorem InnovationCounter.get_add_mono (c : InnovationCounter) (q conn : Nat × Nat) (i : Nat)
    (h : c.get q = some i) : ((c.add conn).2).get q = some i := by
  unfold InnovationCounter.add
  cases hl : imLookup c.connections conn with
  | some j => simpa [InnovationCounter.get] using h
  | none =>
    have hne : q ≠ conn := by
      intro hq
      rw [hq] at h
      simp only [InnovationCounter.get, hl] at h
      cases h
    simp only [InnovationCounter.get] at h ⊢
    simpa [imLookup, if_neg hne] using h

/-! ### Innovation registry lemmas (claim C5) -/

theorem InnovationCounter.add_of_none (c : InnovationCounter) (k : Nat × Nat)
    (h : imLookup c.connections k = none) :
    c.add k = ((c.count + 1) % 65536,
      ⟨(c.count + 1) % 65536, (k, (c.count + 1) % 65536) :: c.connections⟩) := by
  unfold InnovationCounter.add
  rw [h]

theorem InnovationCounter.add_of_some (c : InnovationCounter) (k : Nat × Nat) (i : Nat)
    (h : imLookup c.connections k = some i) : c.add k = (i, c) := by
  unfold InnovationCounter.add
  rw [h]

theorem addAll_nil (c : InnovationCounter) : addAll [] c = ([], c) := rfl

theorem addAll_cons (k : Nat × Nat) (ks : List (Nat × Nat)) (c : InnovationCounter) :
    addAll (k :: ks) c =
      ((c.add k).1 :: (addAll ks (c.add k).2).1, (addAll ks (c.add k).2).2) := by
  rcases hadd : c.add k with ⟨i, c1⟩
  rcases hrec : addAll ks c1 with ⟨is, c2⟩
  simp [addAll, hadd, hrec]

/-- Freshly requested keys get strictly increasing IDs, provided the `u16`
counter cannot wrap. -/
theorem addAll_fresh :
    ∀ (ks : List (Nat × Nat)) (c : InnovationCounter),
      ks.Nodup → (∀ k ∈ ks, imLookup c.connections k = none) →
      c.count + ks.length ≤ 65535 →
      List.Chain' (· < ·) (addAll ks c).1 ∧
      (∀ i ∈ (addAll ks c).1, c.count < i) ∧
      (addAll ks c).2.count = c.count + ks.length := by
  intro ks
  induction ks with
  | nil =>
    intro c _ _ _
    exact ⟨List.chain'_nil, by simp [addAll_nil], by simp [addAll_nil]⟩
  | cons k ks ih =>
    intro c hnd hfresh hbound
    have hlen : (k :: ks).length = ks.length + 1 := rfl
    rw [hlen] at hbound
    have hlk : imLookup c.connections k = none := hfresh k (List.mem_cons_self _ _)
    have hmod : (c.count + 1) % 65536 = c.count + 1 := Nat.mod_eq_of_lt (by omega)
    have hadd' : c.add k =
        (c.count + 1, ⟨c.count + 1, (k, c.count + 1) :: c.connections⟩) := by
      rw [InnovationCounter.add_of_none c k hlk, hmod]
    have hnd' := List.nodup_cons.mp hnd
    have hfresh1 : ∀ q ∈ ks,
        imLookup (InnovationCounter.mk (c.count + 1)
          ((k, c.count + 1) :: c.connections)).connections q = none := by
      intro q hq
      have hne : ¬(q = k) := fun h => hnd'.1 (h ▸ hq)
      simpa [imLookup_cons, if_neg hne] using hfresh q (List.mem_cons_of_mem _ hq)
    have hb1 : (InnovationCounter.mk (c.count + 1)
        ((k, c.count + 1) :: c.connections)).count + ks.length ≤ 65535 := by
      simpa using by omega
    obtain ⟨ch, hlb, hcount⟩ := ih _ hnd'.2 hfresh1 hb1
    rw [addAll_cons, hadd']
    refine ⟨?_, ?_, ?_⟩
    · rw [List.chain'_cons']
      exact ⟨fun y hy => hlb y (List.mem_of_mem_head? hy), ch⟩
    · intro i hi
      rcases List.mem_cons.mp hi with rfl | hi
      · omega
      · have := hlb i hi
        simp only at this
        omega
    · rw [hcount]
      simp only
      omega

/-- c5: the Innovation Registry is idempotent and monotone — `new(start)`
issues `start` first; a repeated `add` with the same key returns the same ID
without advancing anything; and a sequence of distinct fresh keys receives
pairwise distinct, strictly increasing IDs in order of first request (as
long as the `u16` counter cannot wrap). -/
theorem c5_innovation_registry :
    (∀ (start : Nat) (k : Nat × Nat), 1 ≤ start → start ≤ 65535 →
      ((InnovationCounter.new start).add k).1 = start) ∧
    (∀ (c : InnovationCounter) (k : Nat × Nat),
      ((c.add k).2).add k = ((c.add k).1, (c.add k).2)) ∧
    (∀ (start : Nat) (ks : List (Nat × Nat)),
      ks.Nodup → 1 ≤ start → start - 1 + ks.length ≤ 65535 →
      List.Pairwise (· < ·) (addAll ks (InnovationCounter.new start)).1) := by
  refine ⟨?_, ?_, ?_⟩
  · intro start k h1 h2
    have hlk : imLookup (InnovationCounter.new start).connections k = none := rfl
    rw [InnovationCounter.add_of_none _ k hlk]
    show ((InnovationCounter.new start).count + 1) % 65536 = start
    have : (InnovationCounter.new start).count = start - 1 := rfl
    rw [this]
    have hs : start - 1 + 1 = start := by omega
    rw [hs]
    exact Nat.mod_eq_of_lt (by omega)
  · intro c k
    cases hlk : imLookup c.connections k with
    | some i =>
      rw [InnovationCounter.add_of_some c k i hlk]
      exact InnovationCounter.add_of_some c k i hlk
    | none =>
      rw [InnovationCounter.add_of_none c k hlk]
      refine InnovationCounter.add_of_some _ k _ ?_
      simp [imLookup_cons]
  · intro start ks hnd h1 hb
    have hfresh : ∀ k ∈ ks, imLookup (InnovationCounter.new start).connections k = none :=
      fun k _ => rfl
    have hcount : (InnovationCounter.new start).count = start - 1 := rfl
    obtain ⟨ch, _, _⟩ := addAll_fresh ks (InnovationCounter.new start) hnd hfresh
      (by rw [hcount]; omega)
    exact List.chain'_iff_pairwise.mp ch

/-- Concrete witness for c5, mirroring the crate's own `test_counter`. -/
theorem c5_innovation_registry_witness :
    (1 ≤ 4 ∧ 4 ≤ 65535 ∧ ((InnovationCounter.new 4).add (0, 3)).1 = 4) ∧
    ((((InnovationCounter.new 4).add (0, 3)).2).add (0, 3) =
      (((InnovationCounter.new 4).add (0, 3)).1, ((InnovationCounter.new 4).add (0, 3)).2)) ∧
    ([((0 : Nat), (3 : Nat)), (2, 3)].Nodup ∧ 4 - 1 + 2 ≤ 65535 ∧
      List.Pairwise (· < ·) (addAll [(0, 3), (2, 3)] (InnovationCounter.new 4)).1) :=
  ⟨⟨by decide, by decide, c5_innovation_registry.1 4 (0, 3) (by decide) (by decide)⟩,
    c5_innovation_registry.2.1 (InnovationCounter.new 4) (0, 3),
    by decide, by decide,
    c5_innovation_registry.2.2 4 [(0, 3), (2, 3)] (by decide) (by decide) (by decide)⟩

/-! ### `Genome::add_connection` behavior (claims C3, C10) -/

/-- c3: `add_connection` rejects (returns `false`, changes nothing) when the
sampled indices coincide or both lie in the output range, or when
`feedforward` is set and the reverse edge exists; re-enables an existing
forward edge (keeping its weight, issuing no ID) and returns `true`;
otherwise inserts a fresh enabled connection with the drawn weight (lying in
`[-weight, weight]`), registers it, and returns `true`. -/
theorem c3_add_connection_spec
    (innovations : InnovationCounter) (settings : NeatSettings) (g : Genome)
    (input output : Nat) (w : ℚ) (inp outp : Nat × Neuron)
    (hgi : g.nodes.get? input = some inp)
    (hgo : g.nodes.get? output = some outp)
    (hw : -settings.weight ≤ w ∧ w ≤ settings.weight) :
    ((input = output ∨ (g.is_output input ∧ g.is_output output)) →
      Genome.add_connection innovations settings input output w g =
        some (false, g, innovations)) ∧
    (¬(input = output ∨ (g.is_output input ∧ g.is_output output)) →
      settings.feedforward = true →
      imContains g.connections (outp.1, inp.1) = true →
      Genome.add_connection innovations settings input output w g =
        some (false, g, innovations)) ∧
    (∀ info : Connection,
      ¬(input = output ∨ (g.is_output input ∧ g.is_output output)) →
      ¬(settings.feedforward = true ∧ imContains g.connections (outp.1, inp.1) = true) →
      imLookup g.connections (inp.1, outp.1) = some info →
      info.enabled = false →
      Genome.add_connection innovations settings input output w g =
        some (true,
          { g with connections :=
              imInsert g.connections (inp.1, outp.1) ⟨info.weight, true⟩ },
          innovations) ∧
      imLookup (imInsert g.connections (inp.1, outp.1) ⟨info.weight, true⟩)
          (inp.1, outp.1) = some ⟨info.weight, true⟩ ∧
      (∀ q, q ≠ (inp.1, outp.1) →
        imLookup (imInsert g.connections (inp.1, outp.1) ⟨info.weight, true⟩) q =
          imLookup g.connections q)) ∧
    (¬(input = output ∨ (g.is_output input ∧ g.is_output output)) →
      ¬(settings.feedforward = true ∧ imContains g.connections (outp.1, inp.1) = true) →
      imLookup g.connections (inp.1, outp.1) = none →
      Genome.add_connection innovations settings input output w g =
        some (true,
          { g with connections := imInsert g.connections (inp.1, outp.1) ⟨w, true⟩ },
          (innovations.add (inp.1, outp.1)).2) ∧
      imLookup (imInsert g.connections (inp.1, outp.1) ⟨w, true⟩) (inp.1, outp.1) =
        some ⟨w, true⟩ ∧
      -settings.weight ≤ w ∧ w ≤ settings.weight) := by
  have hbool : ∀ (h2 : ¬(settings.feedforward = true ∧
      imContains g.connections (outp.1, inp.1) = true)),
      (settings.feedforward && imContains g.connections (outp.1, inp.1)) = false := by
    intro h2
    cases hf : settings.feedforward <;> cases hr : imContains g.connections (outp.1, inp.1)
    · rfl
    · rfl
    · rfl
    · exact absurd ⟨hf, hr⟩ h2
  refine ⟨?_, ?_, ?_, ?_⟩
  · intro h1
    unfold Genome.add_connection
    rw [if_pos h1]
  · intro h1 hff hrev
    unfold Genome.add_connection
    rw [if_neg h1, hgi, hgo]
    simp only [hff, hrev, Bool.and_self, if_pos]
  · intro info h1 h2 hlook hen
    refine ⟨?_, imLookup_imInsert_self _ _ _, fun q hq => imLookup_imInsert_ne _ q _ _ hq⟩
    unfold Genome.add_connection
    rw [if_neg h1, hgi, hgo]
    simp only [hbool h2, Bool.false_eq_true, hlook]
    simp
  · intro h1 h2 hlook
    refine ⟨?_, imLookup_imInsert_self _ _ _, hw.1, hw.2⟩
    unfold Genome.add_connection
    rw [if_neg h1, hgi, hgo]
    simp only [hbool h2, Bool.false_eq_true, hlook]
    simp

/-- Concrete witness for c3: a fresh connection `0 → 2` is inserted with the
drawn weight, registered, and reported as a successful mutation. -/
theorem c3_add_connection_spec_witness :
    wGenome.nodes.get? 0 = some (0, ⟨1⟩) ∧
    wGenome.nodes.get? 2 = some (2, ⟨1⟩) ∧
    (-wSettings.weight ≤ (0 : ℚ) ∧ (0 : ℚ) ≤ wSettings.weight) ∧
    Genome.add_connection wInnov wSettings 0 2 0 wGenome =
      some (true,
        { wGenome with connections := imInsert wGenome.connections (0, 2) ⟨0, true⟩ },
        (wInnov.add (0, 2)).2) :=
  ⟨by decide, by decide, by decide,
    ((c3_add_connection_spec wInnov wSettings wGenome 0 2 0 (0, ⟨1⟩) (2, ⟨1⟩)
      (by decide) (by decide) (by decide)).2.2.2
      (by decide) (by decide) (by decide)).1⟩

/-- c10: when the sampled forward edge exists and is already enabled (and no
reject branch fired), `add_connection` still returns `true` while leaving
the genome and the registry completely unchanged. -/
theorem c10_add_connection_enabled_noop
    (innovations : InnovationCounter) (settings : NeatSettings) (g : Genome)
    (input output : Nat) (w : ℚ) (inp outp : Nat × Neuron) (info : Connection)
    (hgi : g.nodes.get? input = some inp)
    (hgo : g.nodes.get? output = some outp)
    (hnd : (g.connections.map Prod.fst).Nodup)
    (h1 : ¬(input = output ∨ (g.is_output input ∧ g.is_output output)))
    (h2 : ¬(settings.feedforward = true ∧ imContains g.connections (outp.1, inp.1) = true))
    (hlook : imLookup g.connections (inp.1, outp.1) = some info)
    (hen : info.enabled = true) :
    Genome.add_connection innovations settings input output w g =
      some (true, g, innovations) := by
  have hconn : (Connection.mk info.weight true) = info := by
    obtain ⟨cw, ce⟩ := info
    simp only at hen
    rw [hen]
  have hins : imInsert g.connections (inp.1, outp.1) ⟨info.weight, true⟩ = g.connections := by
    rw [hconn]
    exact imInsert_self _ _ _ hnd hlook
  have hbool : (settings.feedforward && imContains g.connections (outp.1, inp.1)) = false := by
    cases hf : settings.feedforward <;> cases hr : imContains g.connections (outp.1, inp.1)
    · rfl
    · rfl
    · rfl
    · exact absurd ⟨hf, hr⟩ h2
  unfold Genome.add_connection
  rw [if_neg h1, hgi, hgo]
  simp only [hbool, Bool.false_eq_true, hlook, hins]
  simp

/-- Concrete witness for c10: re-"enabling" the already enabled edge `0 → 1`
reports success with the genome and registry untouched. -/
theorem c10_add_connection_enabled_noop_witness :
    wGenome.nodes.get? 0 = some (0, ⟨1⟩) ∧
    wGenome.nodes.get? 1 = some (1, ⟨1⟩) ∧
    imLookup wGenome.connections (0, 1) = some ⟨1, true⟩ ∧
    Genome.add_connection wInnov wSettings 0 1 0 wGenome =
      some (true, wGenome, wInnov) :=
  ⟨by decide, by decide, by decide,
    c10_add_connection_enabled_noop wInnov wSettings wGenome 0 1 0 (0, ⟨1⟩) (1, ⟨1⟩)
      ⟨1, true⟩ (by decide) (by decide) (by decide) (by decide) (by decide)
      (by decide) (by decide)⟩

/-! ### Crossover lemmas (claims C4, C9) -/

theorem isSome_eq_some_getD {α : Type} (o : Option α) (d : α) (h : o.isSome) :
    o = some (o.getD d) := by
  cases o with
  | none => cases h
  | some a => rfl

theorem imLookup_append_left {K V : Type} [DecidableEq K]
    {l : List (K × V)} {q : K} {v : V} (l2 : List (K × V))
    (h : imLookup l q = some v) : imLookup (l ++ l2) q = some v := by
  induction l with
  | nil => cases h
  | cons p rest ih =>
    obtain ⟨k, w⟩ := p
    by_cases hq : q = k
    · rw [imLookup_cons, if_pos hq] at h
      rw [List.cons_append, imLookup_cons, if_pos hq]
      exact h
    · rw [imLookup_cons, if_neg hq] at h
      rw [List.cons_append, imLookup_cons, if_neg hq]
      exact ih h

theorem imLookup_append_none {K V : Type} [DecidableEq K]
    {l : List (K × V)} {q : K} (l2 : List (K × V))
    (h : imLookup l q = none) : imLookup (l ++ l2) q = imLookup l2 q := by
  induction l with
  | nil => rfl
  | cons p rest ih =>
    obtain ⟨k, w⟩ := p
    by_cases hq : q = k
    · rw [imLookup_cons, if_pos hq] at h
      cases h
    · rw [imLookup_cons, if_neg hq] at h
      rw [List.cons_append, imLookup_cons, if_neg hq]
      exact ih h

/-- `cross_insert_node` never touches the child's connection table (or its
input/output counts). -/
theorem cross_insert_node_frame (child src : Genome) (id : Nat) (c : Genome)
    (h : Genome.cross_insert_node child src id = some c) :
    c.connections = child.connections ∧ c.inputs = child.inputs ∧
      c.outputs = child.outputs := by
  unfold Genome.cross_insert_node at h
  by_cases hc : imContains child.nodes id
  · rw [if_pos hc] at h
    obtain rfl : child = c := by simpa using h
    exact ⟨rfl, rfl, rfl⟩
  · rw [if_neg hc] at h
    cases hl : imLookup src.nodes id with
    | none => rw [hl] at h; cases h
    | some n =>
      rw [hl] at h
      obtain rfl : { child with nodes := imInsert child.nodes id n } = c := by simpa using h
      exact ⟨rfl, rfl, rfl⟩

/-- `cross_insert_node` preserves every node entry already present. -/
theorem cross_insert_node_nodes_mono (child src : Genome) (id : Nat) (c : Genome)
    (h : Genome.cross_insert_node child src id = some c) :
    ∀ i n, imLookup child.nodes i = some n → imLookup c.nodes i = some n := by
  intro i n hin
  unfold Genome.cross_insert_node at h
  by_cases hc : imContains child.nodes id
  · rw [if_pos hc] at h
    obtain rfl : child = c := by simpa using h
    exact hin
  · rw [if_neg hc] at h
    cases hl : imLookup src.nodes id with
    | none => rw [hl] at h; cases h
    | some nn =>
      rw [hl] at h
      obtain rfl : { child with nodes := imInsert child.nodes id nn } = c := by simpa using h
      have hne : i ≠ id := by
        intro hid
        rw [hid] at hin
        simp [imContains, hin] at hc
      show imLookup (imInsert child.nodes id nn) i = some n
      rw [imLookup_imInsert_ne _ _ _ _ hne]
      exact hin

/-- Keys of the child built by the `cross` loop come from the seed child or
from the iterated (better's) connection list. -/
theorem cross_go_keys (flips : Nat → Bool) (better worse : Genome) :
    ∀ (l : List ((Nat × Nat) × Connection)) (k : Nat) (child child' : Genome),
      Genome.cross_go flips better worse k l child = some child' →
      ∀ q, (imLookup child'.connections q).isSome →
        (imLookup child.connections q).isSome ∨ q ∈ l.map Prod.fst := by
  intro l
  induction l with
  | nil =>
    intro k child child' h q hq
    obtain rfl : child = child' := by simpa [Genome.cross_go] using h
    exact Or.inl hq
  | cons p rest ih =>
    intro k child child' h q hq
    obtain ⟨key, info⟩ := p
    unfold Genome.cross_go at h
    by_cases hbr : (imContains worse.connections key && flips k) = true
    · rw [if_pos hbr] at h
      cases h1 : Genome.cross_insert_node child worse key.1 with
      | none => simp [h1] at h
      | some c1 =>
        simp only [h1] at h
        cases h2 : Genome.cross_insert_node c1 worse key.2 with
        | none => simp [h2] at h
        | some c2 =>
          simp only [h2] at h
          cases h3 : imLookup worse.connections key with
          | none => simp [h3] at h
          | some winfo =>
            simp only [h3] at h
            have := ih (k + 1) _ child' h q hq
            rcases this with hin | hin
            · by_cases hqk : q = key
              · exact Or.inr (by simp [hqk])
              · rw [show ({ c2 with connections := imInsert c2.connections key winfo } :
                    Genome).connections = imInsert c2.connections key winfo from rfl,
                  imLookup_imInsert_ne _ _ _ _ hqk,
                  (cross_insert_node_frame _ _ _ _ h2).1,
                  (cross_insert_node_frame _ _ _ _ h1).1] at hin
                exact Or.inl hin
            · exact Or.inr (List.mem_cons_of_mem _ hin)
    · rw [if_neg hbr] at h
      cases h1 : Genome.cross_insert_node child better key.1 with
      | none => simp [h1] at h
      | some c1 =>
        simp only [h1] at h
        cases h2 : Genome.cross_insert_node c1 better key.2 with
        | none => simp [h2] at h
        | some c2 =>
          simp only [h2] at h
          have := ih (k + 1) _ child' h q hq
          rcases this with hin | hin
          · by_cases hqk : q = key
            · exact Or.inr (by simp [hqk])
            · rw [show ({ c2 with connections := imInsert c2.connections key info } :
                  Genome).connections = imInsert c2.connections key info from rfl,
                imLookup_imInsert_ne _ _ _ _ hqk,
                (cross_insert_node_frame _ _ _ _ h2).1,
                (cross_insert_node_frame _ _ _ _ h1).1] at hin
              exact Or.inl hin
          · exact Or.inr (List.mem_cons_of_mem _ hin)

/-- The `cross` loop preserves every node entry already present in the child. -/
theorem cross_go_nodes_mono (flips : Nat → Bool) (better worse : Genome) :
    ∀ (l : List ((Nat × Nat) × Connection)) (k : Nat) (child child' : Genome),
      Genome.cross_go flips better worse k l child = some child' →
      ∀ i n, imLookup child.nodes i = some n → imLookup child'.nodes i = some n := by
  intro l
  induction l with
  | nil =>
    intro k child child' h i n hin
    obtain rfl : child = child' := by simpa [Genome.cross_go] using h
    exact hin
  | cons p rest ih =>
    intro k child child' h i n hin
    obtain ⟨key, info⟩ := p
    unfold Genome.cross_go at h
    by_cases hbr : (imContains worse.connections key && flips k) = true
    · rw [if_pos hbr] at h
      cases h1 : Genome.cross_insert_node child worse key.1 with
      | none => simp [h1] at h
      | some c1 =>
        simp only [h1] at h
        cases h2 : Genome.cross_insert_node c1 worse key.2 with
        | none => simp [h2] at h
        | some c2 =>
          simp only [h2] at h
          cases h3 : imLookup worse.connections key with
          | none => simp [h3] at h
          | some winfo =>
            simp only [h3] at h
            refine ih (k + 1) _ child' h i n ?_
            show imLookup c2.nodes i = some n
            exact cross_insert_node_nodes_mono _ _ _ _ h2 i n
              (cross_insert_node_nodes_mono _ _ _ _ h1 i n hin)
    · rw [if_neg hbr] at h
      cases h1 : Genome.cross_insert_node child better key.1 with
      | none => simp [h1] at h
      | some c1 =>
        simp only [h1] at h
        cases h2 : Genome.cross_insert_node c1 better key.2 with
        | none => simp [h2] at h
        | some c2 =>
          simp only [h2] at h
          refine ih (k + 1) _ child' h i n ?_
          show imLookup c2.nodes i = some n
          exact cross_insert_node_nodes_mono _ _ _ _ h2 i n
            (cross_insert_node_nodes_mono _ _ _ _ h1 i n hin)

/-- Lookup in a `range`-keyed constant table. -/
theorem range_map_lookup {V : Type} (v : V) :
    ∀ (n i : Nat), i < n →
      imLookup ((List.range n).map (fun j => (j, v))) i = some v := by
  intro n
  induction n with
  | zero => intro i h; omega
  | succ n ihn =>
    intro i h
    rw [List.range_succ, List.map_append]
    by_cases hn : i < n
    · exact imLookup_append_left _ (ihn i hn)
    · obtain rfl : i = n := by omega
      have hnone : imLookup ((List.range i).map (fun j => (j, v))) i = none := by
        refine imLookup_eq_none _ _ ?_
        intro p hp
        simp only [List.mem_map, List.mem_range] at hp
        obtain ⟨j, hj, rfl⟩ := hp
        simpa using Nat.ne_of_lt hj
      rw [imLookup_append_none _ hnone]
      simp

/-- Every id below `inputs + outputs` is present in `Genome::new`'s node
table with the default activation. -/
theorem new_nodes_lookup (inputs outputs i : Nat) (h : i < inputs + outputs) :
    imLookup (Genome.new inputs outputs).nodes i = some ⟨49 / 10⟩ :=
  range_map_lookup (⟨49 / 10⟩ : Neuron) (inputs + outputs) i h

/-- c4: the child of `cross(better, worse)` only ever carries connection
keys that `better` carries — genes unique to `worse` are never inherited. -/
theorem c4_cross_keys_subset (flips : Nat → Bool) (better worse child : Genome)
    (h : Genome.cross flips better worse = some child) :
    ∀ q, (imLookup child.connections q).isSome →
      (imLookup better.connections q).isSome := by
  intro q hq
  unfold Genome.cross at h
  by_cases hio : better.inputs = worse.inputs ∧ better.outputs = worse.outputs
  · rw [if_pos hio] at h
    rcases cross_go_keys flips better worse better.connections 0
        (Genome.new better.inputs better.outputs) child h q hq with hseed | hmem
    · cases hseed
    · exact imLookup_isSome_of_mem_keys hmem
  · rw [if_neg hio] at h
    cases h

/-- Concrete witness for c4: the crossed child of `wBetter`/`wWorse` carries
no key outside `wBetter`'s connection table. -/
theorem c4_cross_keys_subset_witness :
    (Genome.cross (fun _ => true) wBetter wWorse).isSome ∧
    (∀ q, (imLookup ((Genome.cross (fun _ => true) wBetter wWorse).getD wBetter).connections
        q).isSome →
      (imLookup wBetter.connections q).isSome) :=
  ⟨by decide,
    c4_cross_keys_subset (fun _ => true) wBetter wWorse _
      (isSome_eq_some_getD _ wBetter (by decide))⟩

/-- c9: every input/output node of a crossover child keeps the default
activation steepness `4.9` (the child is seeded by `Genome::new` and
gene-sourced node inserts never overwrite), regardless of the parents'
activation values. -/
theorem c9_cross_io_nodes_default (flips : Nat → Bool) (better worse child : Genome)
    (h : Genome.cross flips better worse = some child) :
    ∀ i, i < better.inputs + better.outputs →
      imLookup child.nodes i = some ⟨49 / 10⟩ := by
  intro i hi
  unfold Genome.cross at h
  by_cases hio : better.inputs = worse.inputs ∧ better.outputs = worse.outputs
  · rw [if_pos hio] at h
    exact cross_go_nodes_mono flips better worse better.connections 0
      (Genome.new better.inputs better.outputs) child h i ⟨49 / 10⟩
      (new_nodes_lookup better.inputs better.outputs i hi)
  · rw [if_neg hio] at h
    cases h

/-- Concrete witness for c9: although both parents mutated the activations
of nodes 0 and 1, the child keeps `4.9` on both. -/
theorem c9_cross_io_nodes_default_witness :
    (Genome.cross (fun _ => true) wBetter wWorse).isSome ∧
    imLookup ((Genome.cross (fun _ => true) wBetter wWorse).getD wBetter).nodes 0 =
      some ⟨49 / 10⟩ ∧
    imLookup ((Genome.cross (fun _ => true) wBetter wWorse).getD wBetter).nodes 1 =
      some ⟨49 / 10⟩ :=
  ⟨by decide,
    c9_cross_io_nodes_default (fun _ => true) wBetter wWorse _
      (isSome_eq_some_getD _ wBetter (by decide)) 0 (by decide),
    c9_cross_io_nodes_default (fun _ => true) wBetter wWorse _
      (isSome_eq_some_getD _ wBetter (by decide)) 1 (by decide)⟩

/-! ### `Neat::kill` group survival (claim C6) -/

/-- c6: on a species group of size `n ≥ 2` (all members scored), `kill`'s
non-singleton branch retains exactly `⌊n/2⌋` members — never zero — drawn
from the group, and every retained member's fitness dominates every removed
member's fitness. -/
theorem c6_kill_group_top_half (group : List Organism)
    (h2 : 2 ≤ group.length)
    (_hfit : ∀ o ∈ group, o.fitness.isSome) :
    (Neat.kill_group group).length = group.length / 2 ∧
    1 ≤ (Neat.kill_group group).length ∧
    (∀ x ∈ Neat.kill_group group, x ∈ group) ∧
    (∀ x ∈ Neat.kill_group group,
      ∀ y ∈ (Neat.sortDesc group).drop (group.length / 2), org_ge x y) := by
  have hperm : (Neat.sortDesc group).Perm group :=
    List.perm_insertionSort org_ge group
  have hlen : (Neat.sortDesc group).length = group.length := hperm.length_eq
  have hlen2 : (Neat.kill_group group).length = group.length / 2 := by
    unfold Neat.kill_group
    rw [List.length_take, hlen]
    exact Nat.min_eq_left (Nat.div_le_self _ _)
  have hsorted : List.Pairwise org_ge (Neat.sortDesc group) :=
    List.sorted_insertionSort org_ge group
  refine ⟨hlen2, ?_, ?_, ?_⟩
  · rw [hlen2]
    omega
  · intro x hx
    exact hperm.subset (List.mem_of_mem_take hx)
  · intro x hx y hy
    rw [← List.take_append_drop (group.length / 2) (Neat.sortDesc group)] at hsorted
    exact (List.pairwise_append.mp hsorted).2.2 x hx y hy

/-- Concrete witness for c6: from a scored group of three, `kill` keeps
exactly the single highest-fitness member. -/
theorem c6_kill_group_top_half_witness :
    2 ≤ wGroup.length ∧ (∀ o ∈ wGroup, o.fitness.isSome) ∧
    ((Neat.kill_group wGroup).length = wGroup.length / 2 ∧
      1 ≤ (Neat.kill_group wGroup).length ∧
      (∀ x ∈ Neat.kill_group wGroup, x ∈ wGroup) ∧
      (∀ x ∈ Neat.kill_group wGroup,
        ∀ y ∈ (Neat.sortDesc wGroup).drop (wGroup.length / 2), org_ge x y)) :=
  ⟨by decide, by decide, c6_kill_group_top_half wGroup (by decide) (by decide)⟩

/-! ### `Neat::generate` refill lemmas (claims C2, C8) -/

theorem cross_loop_length (o : Neat.GenOracle) :
    ∀ (n i : Nat) (pop pop' : List Organism),
      Neat.cross_loop o i n pop = some pop' → pop'.length = pop.length + n := by
  intro n
  induction n with
  | zero =>
    intro i pop pop' h
    obtain rfl : pop = pop' := by simpa [Neat.cross_loop] using h
    simp
  | succ n ihn =>
    intro i pop pop' h
    unfold Neat.cross_loop at h
    split at h
    · split at h
      · cases h
      · have := ihn (i + 1) _ _ h
        simp only [List.length_append, List.length_cons, List.length_nil] at this
        omega
    · cases h

theorem clone_loop_length (o : Neat.GenOracle) (settings : NeatSettings) :
    ∀ (n i : Nat) (pop : List Organism) (innov : InnovationCounter)
      (r : List Organism × InnovationCounter),
      Neat.clone_loop o settings i n pop innov = some r → r.1.length = pop.length + n := by
  intro n
  induction n with
  | zero =>
    intro i pop innov r h
    obtain rfl : (pop, innov) = r := by simpa [Neat.clone_loop] using h
    simp
  | succ n ihn =>
    intro i pop innov r h
    unfold Neat.clone_loop at h
    split at h
    · cases h
    · split at h
      · cases h
      · have := ihn (i + 1) _ _ _ h
        simp only [List.length_append, List.length_cons, List.length_nil] at this
        omega

/-- Whenever `generate` completes it has refilled the population to exactly
the configured target size. -/
theorem generate_length (o : Neat.GenOracle) (st st' : NeatState)
    (h : Neat.generate o st = some st') : st'.population.length = st.size := by
  unfold Neat.generate at h
  cases h1 : (if (o.shuf st.population).length < st.size * 3 / 4 then
      Neat.cross_loop o 0 (st.size * 3 / 4 - (o.shuf st.population).length)
        (o.shuf st.population)
    else some (o.shuf st.population)) with
  | none => simp [h1] at h
  | some pop1 =>
    simp only [h1] at h
    by_cases hsz : st.size < pop1.length
    · rw [if_pos hsz] at h
      cases h
    · rw [if_neg hsz] at h
      cases h2 : Neat.clone_loop o st.settings 0 (st.size - pop1.length) pop1 st.innovations with
      | none => simp [h2] at h
      | some r =>
        simp only [h2] at h
        have hl := clone_loop_length o st.settings (st.size - pop1.length) 0 pop1
          st.innovations r h2
        obtain rfl : { st with population := r.1, innovations := r.2 } = st' := by
          simpa using h
        show r.1.length = st.size
        omega

theorem speciate_size (fit : Genome → ℚ) (st : NeatState)
    (r : NeatState × List (List Organism))
    (h : Neat.speciate fit st = some r) : r.1.size = st.size := by
  unfold Neat.speciate at h
  cases hs : Neat.speciate_go st.settings st.population
      (if st.settings.reset_fitness then { st.best with fitness := some (fit st.best.genome) }
       else st.best) [] with
  | none => simp [hs] at h
  | some p =>
    obtain ⟨best1, groups⟩ := p
    simp only [hs] at h
    obtain rfl : ({ st with species_count := groups.length, best := best1 }, groups) = r :=
      Option.some.inj h
    rfl

theorem kill_size (fit : Genome → ℚ) (flips : Nat → Bool) (st st2 : NeatState)
    (h : Neat.kill fit flips st = some st2) : st2.size = st.size := by
  unfold Neat.kill at h
  cases hs : Neat.speciate fit st with
  | none => simp [hs] at h
  | some r =>
    simp only [hs, Option.map_some'] at h
    obtain rfl : { r.1 with population := Neat.kill_select flips 0 r.2 } = st2 :=
      Option.some.inj h
    show r.1.size = st.size
    exact speciate_size fit st r hs

/-- c2: whenever `generate()` completes, the population holds exactly the
configured target `size`; consequently every completed `step()` leaves the
population at exactly `size` at the generation boundary. -/
theorem c2_generate_refills_to_size :
    (∀ (o : Neat.GenOracle) (st st' : NeatState),
      Neat.generate o st = some st' → st'.population.length = st.size) ∧
    (∀ (fit : Genome → ℚ) (flips : Nat → Bool) (o : Neat.GenOracle) (st : NeatState)
      (r : NeatState × Network × ℚ),
      Neat.step fit flips o st = some r → r.1.population.length = st.size) := by
  refine ⟨fun o st st' h => generate_length o st st' h, ?_⟩
  intro fit flips o st r h
  unfold Neat.step at h
  cases hk : Neat.kill fit flips (Neat.execute fit st) with
  | none => simp [hk] at h
  | some st2 =>
    simp only [hk] at h
    cases hg : Neat.generate o st2 with
    | none => simp [hg] at h
    | some st3 =>
      simp only [hg] at h
      cases hn : Network.new st3.best.genome with
      | none => simp [hn] at h
      | some net =>
        simp only [hn] at h
        cases hf : st3.best.fitness with
        | none => simp [hf] at h
        | some f =>
          simp only [hf] at h
          obtain rfl : (st3, net, f) = r := Option.some.inj h
          show st3.population.length = st.size
          rw [generate_length o st2 st3 hg, kill_size fit flips _ st2 hk]
          rfl

/-- Concrete witness for c2: a full `step` on a size-1 population completes
and leaves the population at exactly the configured size. -/
theorem c2_generate_refills_to_size_witness :
    (Neat.generate wOracle wState).isSome ∧
    ((Neat.generate wOracle wState).getD wState).population.length = wState.size ∧
    (Neat.step wFit wFlips wOracle wState).isSome ∧
    ((Neat.step wFit wFlips wOracle wState).getD wStepDefault).1.population.length
      = wState.size := by
  have hg : (Neat.generate wOracle wState).isSome := by decide
  have hs : (Neat.step wFit wFlips wOracle wState).isSome := by decide
  exact ⟨hg,
    c2_generate_refills_to_size.1 wOracle wState _ (isSome_eq_some_getD _ wState hg),
    hs,
    c2_generate_refills_to_size.2 wFit wFlips wOracle wState _
      (isSome_eq_some_getD _ wStepDefault hs)⟩

/-! ### Well-formedness machinery for `generate` completion (claim C8) -/

theorem mem_keys_of_lookup_isSome {K V : Type} [DecidableEq K]
    {l : List (K × V)} {q : K} (h : (imLookup l q).isSome) :
    q ∈ l.map Prod.fst := by
  cases hl : imLookup l q with
  | none => rw [hl] at h; cases h
  | some v => exact List.mem_map_of_mem Prod.fst (imLookup_mem hl)

theorem keys_imInsert_mono {K V : Type} [DecidableEq K]
    {l : List (K × V)} {q : K} (k : K) (v : V) (h : q ∈ l.map Prod.fst) :
    q ∈ (imInsert l k v).map Prod.fst := by
  by_cases hq : q = k
  · subst hq
    exact mem_keys_of_lookup_isSome (by simp [imLookup_imInsert_self])
  · refine mem_keys_of_lookup_isSome ?_
    rw [imLookup_imInsert_ne _ _ _ _ hq]
    exact imLookup_isSome_of_mem_keys h

theorem keys_imInsert_self {K V : Type} [DecidableEq K]
    (l : List (K × V)) (k : K) (v : V) :
    k ∈ (imInsert l k v).map Prod.fst :=
  mem_keys_of_lookup_isSome (by simp [imLookup_imInsert_self])

theorem mem_imInsert {K V : Type} [DecidableEq K]
    {l : List (K × V)} {k : K} {v : V} {p : K × V} (h : p ∈ imInsert l k v) :
    p ∈ l ∨ p = (k, v) := by
  unfold imInsert at h
  by_cases hc : imContains l k
  · rw [if_pos hc] at h
    unfold imUpdate at h
    obtain ⟨q, hq, hfq⟩ := List.mem_map.mp h
    by_cases hqk : q.1 = k
    · rw [if_pos hqk] at hfq
      exact Or.inr hfq.symm
    · rw [if_neg hqk] at hfq
      exact Or.inl (hfq ▸ hq)
  · rw [if_neg hc] at h
    rcases List.mem_append.mp h with h | h
    · exact Or.inl h
    · exact Or.inr (by simpa using h)

theorem disable_at_mem :
    ∀ (l : List ((Nat × Nat) × Connection)) (i : Nat)
      (p : (Nat × Nat) × Connection), p ∈ Genome.disable_at l i →
      ∃ q ∈ l, q.1 = p.1 := by
  intro l
  induction l with
  | nil => intro i p hp; cases hp
  | cons x rest ih =>
    intro i p hp
    cases i with
    | zero =>
      rcases List.mem_cons.mp hp with rfl | hp
      · exact ⟨x, List.mem_cons_self _ _, rfl⟩
      · exact ⟨p, List.mem_cons_of_mem _ hp, rfl⟩
    | succ n =>
      rcases List.mem_cons.mp hp with rfl | hp
      · exact ⟨p, List.mem_cons_self _ _, rfl⟩
      · obtain ⟨q, hq, hq1⟩ := ih n p hp
        exact ⟨q, List.mem_cons_of_mem _ hq, hq1⟩

theorem mutate_connections_go_mem (dec : Nat → Bool) (delta : Nat → ℚ) :
    ∀ (k : Nat) (l : List ((Nat × Nat) × Connection))
      (p : (Nat × Nat) × Connection), p ∈ Genome.mutate_connections_go dec delta k l →
      ∃ q ∈ l, q.1 = p.1 := by
  intro k l
  induction l generalizing k with
  | nil => intro p hp; cases hp
  | cons x rest ih =>
    intro p hp
    obtain ⟨key, c⟩ := x
    unfold Genome.mutate_connections_go at hp
    by_cases he : c.enabled <;> simp only [he, if_pos, if_neg, Bool.false_eq_true] at hp
    · rcases List.mem_cons.mp hp with rfl | hp
      · exact ⟨(key, c), List.mem_cons_self _ _, rfl⟩
      · obtain ⟨q, hq, hq1⟩ := ih (k + 1) p hp
        exact ⟨q, List.mem_cons_of_mem _ hq, hq1⟩
    · rcases List.mem_cons.mp hp with rfl | hp
      · exact ⟨(key, c), List.mem_cons_self _ _, rfl⟩
      · obtain ⟨q, hq, hq1⟩ := ih k p hp
        exact ⟨q, List.mem_cons_of_mem _ hq, hq1⟩

theorem mutate_nodes_go_keys (dec : Nat → Bool) (delta : Nat → ℚ) :
    ∀ (k : Nat) (l : List (Nat × Neuron)),
      (Genome.mutate_nodes_go dec delta k l).map Prod.fst = l.map Prod.fst := by
  intro k l
  induction l generalizing k with
  | nil => rfl
  | cons x rest ih =>
    obtain ⟨i, n⟩ := x
    unfold Genome.mutate_nodes_go
    simp only [List.map_cons]
    rw [ih (k + 1)]

theorem disable_at_length :
    ∀ (l : List ((Nat × Nat) × Connection)) (i : Nat),
      (Genome.disable_at l i).length = l.length := by
  intro l
  induction l with
  | nil => intro i; rfl
  | cons x rest ih =>
    intro i
    cases i with
    | zero => rfl
    | succ n => simpa [Genome.disable_at] using ih n

theorem add_get_self (c : InnovationCounter) (q : Nat × Nat) :
    (((c.add q).2).get q).isSome := by
  unfold InnovationCounter.add
  cases hl : imLookup c.connections q with
  | some i => simp [InnovationCounter.get, hl]
  | none => simp [InnovationCounter.get, imLookup_cons]

theorem innovMono_add (c : InnovationCounter) (q : Nat × Nat) :
    InnovMono c ((c.add q).2) :=
  fun k i h => InnovationCounter.get_add_mono c k q i h

theorem innovMono_refl (c : InnovationCounter) : InnovMono c c := fun _ _ h => h

theorem innovMono_trans {a b c : InnovationCounter}
    (h1 : InnovMono a b) (h2 : InnovMono b c) : InnovMono a c :=
  fun q i h => h2 q i (h1 q i h)

theorem innovMono_isSome {a b : InnovationCounter} (h : InnovMono a b)
    (q : Nat × Nat) (hq : (a.get q).isSome) : (b.get q).isSome := by
  cases hl : a.get q with
  | none => rw [hl] at hq; cases hq
  | some i => simp [h q i hl]

theorem genomeWF_mono {io : Nat × Nat} {a b : InnovationCounter} {g : Genome}
    (hM : InnovMono a b) (h : GenomeWF io a g) : GenomeWF io b g :=
  ⟨h.1, h.2.1, h.2.2.1, h.2.2.2.1, h.2.2.2.2.1,
    fun p hp => innovMono_isSome hM p.1 (h.2.2.2.2.2 p hp)⟩

/-- `add_connection` with in-range indices always completes, preserves
well-formedness, and only grows the registry. -/
theorem add_connection_wf (innov : InnovationCounter) (settings : NeatSettings)
    (input output : Nat) (w : ℚ) (g : Genome) (io : Nat × Nat)
    (hWF : GenomeWF io innov g)
    (hin : input < g.nodes.length) (hout : output < g.nodes.length) :
    ∃ r, Genome.add_connection innov settings input output w g = some r ∧
      GenomeWF io r.2.2 r.2.1 ∧ InnovMono innov r.2.2 := by
  obtain ⟨hio1, hio2, ho, hsz, hend, hreg⟩ := hWF
  unfold Genome.add_connection
  by_cases h1 : input = output ∨ (g.is_output input ∧ g.is_output output)
  · rw [if_pos h1]
    exact ⟨(false, g, innov), rfl, ⟨hio1, hio2, ho, hsz, hend, hreg⟩, innovMono_refl innov⟩
  · rw [if_neg h1]
    have hgi : g.nodes.get? input = some g.nodes[input] := by
      rw [List.get?_eq_getElem?]
      exact List.getElem?_eq_getElem hin
    have hgo : g.nodes.get? output = some g.nodes[output] := by
      rw [List.get?_eq_getElem?]
      exact List.getElem?_eq_getElem hout
    rw [hgi, hgo]
    have hinpmem : g.nodes[input].1 ∈ g.nodes.map Prod.fst :=
      List.mem_map_of_mem Prod.fst (List.getElem?_mem (List.getElem?_eq_getElem hin))
    have houtmem : g.nodes[output].1 ∈ g.nodes.map Prod.fst :=
      List.mem_map_of_mem Prod.fst (List.getElem?_mem (List.getElem?_eq_getElem hout))
    by_cases h2 : (settings.feedforward &&
        imContains g.connections (g.nodes[output].1, g.nodes[input].1)) = true
    · refine ⟨(false, g, innov), ?_,
        ⟨hio1, hio2, ho, hsz, hend, hreg⟩, innovMono_refl innov⟩
      simp only [h2, if_pos]
    · have h2f : (settings.feedforward &&
          imContains g.connections (g.nodes[output].1, g.nodes[input].1)) = false := by
        cases hb : (settings.feedforward &&
            imContains g.connections (g.nodes[output].1, g.nodes[input].1))
        · rfl
        · exact absurd hb h2
      cases hl : imLookup g.connections (g.nodes[input].1, g.nodes[output].1) with
      | some info =>
        refine ⟨(true,
          Genome.mk g.inputs g.outputs g.nodes
            (imInsert g.connections (g.nodes[input].1, g.nodes[output].1)
              ⟨info.weight, true⟩), innov), ?_, ⟨hio1, hio2, ho, hsz, ?_, ?_⟩,
          innovMono_refl innov⟩
        · simp only [h2f, Bool.false_eq_true, if_neg, hl]
          simp
        · intro p hp
          rcases mem_imInsert hp with hp | rfl
          · exact hend p hp
          · exact ⟨hinpmem, houtmem⟩
        · intro p hp
          rcases mem_imInsert hp with hp | rfl
          · exact hreg p hp
          · exact hreg ((g.nodes[input].1, g.nodes[output].1), info) (imLookup_mem hl)
      | none =>
        refine ⟨(true,
          Genome.mk g.inputs g.outputs g.nodes
            (imInsert g.connections (g.nodes[input].1, g.nodes[output].1)
              ⟨w, true⟩), (innov.add (g.nodes[input].1, g.nodes[output].1)).2), ?_,
          ⟨hio1, hio2, ho, hsz, ?_, ?_⟩, innovMono_add innov _⟩
        · simp only [h2f, Bool.false_eq_true, if_neg, hl]
          simp
        · intro p hp
          rcases mem_imInsert hp with hp | rfl
          · exact hend p hp
          · exact ⟨hinpmem, houtmem⟩
        · intro p hp
          rcases mem_imInsert hp with hp | rfl
          · exact innovMono_isSome (innovMono_add innov _) p.1 (hreg p hp)
          · exact add_get_self innov _

/-- The `gen_range`-wrapped `add_connection` call of `mutate` always
completes on a well-formed genome. -/
theorem add_connection_rng_wf (innov : InnovationCounter) (settings : NeatSettings)
    (r1 r2 : Nat) (w : ℚ) (g : Genome) (io : Nat × Nat)
    (hWF : GenomeWF io innov g) :
    ∃ r, Genome.add_connection_rng innov settings r1 r2 w g = some r ∧
      GenomeWF io r.2.2 r.2.1 ∧ InnovMono innov r.2.2 := by
  have hlt : g.inputs < g.nodes.length := by
    obtain ⟨_, _, ho, hsz, _, _⟩ := hWF
    omega
  unfold Genome.add_connection_rng
  rw [if_neg (by omega)]
  refine add_connection_wf innov settings _ _ w g io hWF ?_ ?_
  · exact Nat.mod_lt _ (by omega)
  · have : r2 % (g.nodes.length - g.inputs) < g.nodes.length - g.inputs :=
      Nat.mod_lt _ (by omega)
    omega

/-- `add_node` always completes on a well-formed genome, preserves
well-formedness, and only grows the registry. -/
theorem add_node_wf (innov : InnovationCounter) (pick : Nat) (g : Genome) (io : Nat × Nat)
    (hWF : GenomeWF io innov g) :
    ∃ r, Genome.add_node innov pick g = some r ∧
      GenomeWF io r.2 r.1 ∧ InnovMono innov r.2 := by
  obtain ⟨hio1, hio2, ho, hsz, hend, hreg⟩ := hWF
  by_cases h0 : g.connections.length = 0
  · refine ⟨(g, innov), ?_, ⟨hio1, hio2, ho, hsz, hend, hreg⟩, innovMono_refl innov⟩
    unfold Genome.add_node
    rw [if_pos h0]
  · have hidx : pick % g.connections.length < g.connections.length :=
      Nat.mod_lt _ (by omega)
    set ci := g.connections[pick % g.connections.length] with hcidef
    have hci : g.connections.get? (pick % g.connections.length) = some ci := by
      rw [List.get?_eq_getElem?]
      exact List.getElem?_eq_getElem hidx
    have hcimem : ci ∈ g.connections :=
      List.getElem?_mem (List.getElem?_eq_getElem hidx)
    cases hgi : innov.get ci.1 with
    | none =>
      exfalso
      have := hreg ci hcimem
      rw [hgi] at this
      cases this
    | some innovation =>
      have hM : InnovMono innov (((innov.add (ci.1.1, innovation)).2).add
          (innovation, ci.1.2)).2 :=
        innovMono_trans (innovMono_add innov _) (innovMono_add _ _)
      have heq : Genome.add_node innov pick g = some
          (Genome.mk g.inputs g.outputs
            (imInsert g.nodes innovation ⟨49 / 10⟩)
            (imInsert
              (imInsert (Genome.disable_at g.connections (pick % g.connections.length))
                (ci.1.1, innovation) ⟨1, true⟩)
              (innovation, ci.1.2) ⟨ci.2.weight, true⟩),
           (((innov.add (ci.1.1, innovation)).2).add (innovation, ci.1.2)).2) := by
        unfold Genome.add_node
        rw [if_neg h0]
        simp only [hci, hgi]
      refine ⟨_, heq, ⟨hio1, hio2, ho, ?_, ?_, ?_⟩, hM⟩
      · calc g.inputs + g.outputs ≤ g.nodes.length := hsz
          _ ≤ _ := imInsert_length_ge _ _ _
      · intro p hp
        have hkeys : ∀ q, q ∈ g.nodes.map Prod.fst →
            q ∈ (imInsert g.nodes innovation (⟨49 / 10⟩ : Neuron)).map Prod.fst :=
          fun q hq => keys_imInsert_mono _ _ hq
        have hiv : innovation ∈ (imInsert g.nodes innovation (⟨49 / 10⟩ : Neuron)).map
            Prod.fst := keys_imInsert_self _ _ _
        rcases mem_imInsert hp with hp | rfl
        · rcases mem_imInsert hp with hp | rfl
          · obtain ⟨q, hq, hq1⟩ := disable_at_mem _ _ _ hp
            have := hend q hq
            rw [hq1] at this
            exact ⟨hkeys _ this.1, hkeys _ this.2⟩
          · exact ⟨hkeys _ (hend ci hcimem).1, hiv⟩
        · exact ⟨hiv, hkeys _ (hend ci hcimem).2⟩
      · intro p hp
        rcases mem_imInsert hp with hp | rfl
        · rcases mem_imInsert hp with hp | rfl
          · obtain ⟨q, hq, hq1⟩ := disable_at_mem _ _ _ hp
            have := hreg q hq
            rw [hq1] at this
            exact innovMono_isSome hM _ this
          · exact innovMono_isSome (innovMono_add _ _) _ (add_get_self innov _)
        · exact add_get_self _ _

theorem mutate_connections_wf (dec : Nat → Bool) (delta : Nat → ℚ) (g : Genome)
    (io : Nat × Nat) (innov : InnovationCounter) (h : GenomeWF io innov g) :
    GenomeWF io innov (Genome.mutate_connections dec delta g) := by
  obtain ⟨h1, h2, h3, h4, h5, h6⟩ := h
  refine ⟨h1, h2, h3, h4, ?_, ?_⟩
  · intro p hp
    obtain ⟨q, hq, hq1⟩ := mutate_connections_go_mem dec delta 0 _ p hp
    have := h5 q hq
    rw [hq1] at this
    exact this
  · intro p hp
    obtain ⟨q, hq, hq1⟩ := mutate_connections_go_mem dec delta 0 _ p hp
    have := h6 q hq
    rw [hq1] at this
    exact this

theorem mutate_nodes_wf (dec : Nat → Bool) (delta : Nat → ℚ) (g : Genome)
    (io : Nat × Nat) (innov : InnovationCounter) (h : GenomeWF io innov g) :
    GenomeWF io innov (Genome.mutate_nodes dec delta g) := by
  obtain ⟨h1, h2, h3, h4, h5, h6⟩ := h
  have hkeys := mutate_nodes_go_keys dec delta 0 g.nodes
  have hlen : (Genome.mutate_nodes_go dec delta 0 g.nodes).length = g.nodes.length := by
    have := congrArg List.length hkeys
    simpa using this
  refine ⟨h1, h2, h3, ?_, ?_, h6⟩
  · show g.inputs + g.outputs ≤ (Genome.mutate_nodes_go dec delta 0 g.nodes).length
    rw [hlen]
    exact h4
  · intro p hp
    have h5' := h5 p hp
    show p.1.1 ∈ (Genome.mutate_nodes_go dec delta 0 g.nodes).map Prod.fst ∧
      p.1.2 ∈ (Genome.mutate_nodes_go dec delta 0 g.nodes).map Prod.fst
    rw [hkeys]
    exact h5'

/-- `Genome::mutate` always completes on a well-formed genome, preserves
well-formedness, and only grows the registry. -/
theorem mutate_wf (mo : Genome.MutOracle) (innov : InnovationCounter)
    (settings : NeatSettings) (g : Genome) (io : Nat × Nat)
    (hWF : GenomeWF io innov g) :
    ∃ r, Genome.mutate mo innov settings g = some r ∧
      GenomeWF io r.2 r.1 ∧ InnovMono innov r.2 := by
  obtain ⟨p1, hs1, hwf1, hM1⟩ :
      ∃ p1, (if mo.doAddConn then
          (Genome.add_connection_rng innov settings mo.acIn mo.acOut mo.acW g).map
            (fun r => (r.2.1, r.2.2))
        else some (g, innov)) = some p1 ∧ GenomeWF io p1.2 p1.1 ∧
        InnovMono innov p1.2 := by
    by_cases hdc : mo.doAddConn
    · obtain ⟨r, hr, hwf, hM⟩ :=
        add_connection_rng_wf innov settings mo.acIn mo.acOut mo.acW g io hWF
      exact ⟨(r.2.1, r.2.2), by rw [if_pos hdc, hr]; rfl, hwf, hM⟩
    · exact ⟨(g, innov), by rw [if_neg hdc], hWF, innovMono_refl innov⟩
  obtain ⟨p2, hs2, hwf2, hM2⟩ :
      ∃ p2, (if mo.doAddNode then Genome.add_node p1.2 mo.anPick p1.1
        else some p1) = some p2 ∧ GenomeWF io p2.2 p2.1 ∧ InnovMono p1.2 p2.2 := by
    by_cases hdn : mo.doAddNode
    · obtain ⟨r, hr, hwf, hM⟩ := add_node_wf p1.2 mo.anPick p1.1 io hwf1
      exact ⟨r, by rw [if_pos hdn, hr], hwf, hM⟩
    · exact ⟨p1, by rw [if_neg hdn], hwf1, innovMono_refl p1.2⟩
  refine ⟨(Genome.mutate_nodes mo.naDec mo.naDelta
      (Genome.mutate_connections mo.wcDec mo.wcDelta p2.1), p2.2), ?_,
    mutate_nodes_wf _ _ _ _ _ (mutate_connections_wf _ _ _ _ _ hwf2),
    innovMono_trans hM1 hM2⟩
  unfold Genome.mutate
  simp only [hs1, hs2]

theorem cross_insert_node_ok (child src : Genome) (id : Nat)
    (hid : id ∈ src.nodes.map Prod.fst) :
    ∃ c, Genome.cross_insert_node child src id = some c ∧
      c.connections = child.connections ∧ c.inputs = child.inputs ∧
      c.outputs = child.outputs ∧
      (∀ q ∈ child.nodes.map Prod.fst, q ∈ c.nodes.map Prod.fst) ∧
      id ∈ c.nodes.map Prod.fst ∧ child.nodes.length ≤ c.nodes.length := by
  unfold Genome.cross_insert_node
  by_cases hc : imContains child.nodes id
  · rw [if_pos hc]
    exact ⟨child, rfl, rfl, rfl, rfl, fun q hq => hq,
      mem_keys_of_lookup_isSome hc, le_refl _⟩
  · rw [if_neg hc]
    have hsome : (imLookup src.nodes id).isSome := imLookup_isSome_of_mem_keys hid
    cases hl : imLookup src.nodes id with
    | none => rw [hl] at hsome; cases hsome
    | some n =>
      exact ⟨_, rfl, rfl, rfl, rfl, fun q hq => keys_imInsert_mono _ _ hq,
        keys_imInsert_self _ _ _, imInsert_length_ge _ _ _⟩

theorem cross_go_ok (flips : Nat → Bool) (better worse : Genome)
    (hbend : ∀ p ∈ better.connections,
      p.1.1 ∈ better.nodes.map Prod.fst ∧ p.1.2 ∈ better.nodes.map Prod.fst)
    (hwend : ∀ p ∈ worse.connections,
      p.1.1 ∈ worse.nodes.map Prod.fst ∧ p.1.2 ∈ worse.nodes.map Prod.fst) :
    ∀ (l : List ((Nat × Nat) × Connection)) (k : Nat) (child : Genome),
      (∀ p ∈ l, p ∈ better.connections) →
      (∀ p ∈ child.connections,
        p.1.1 ∈ child.nodes.map Prod.fst ∧ p.1.2 ∈ child.nodes.map Prod.fst) →
      ∃ c', Genome.cross_go flips better worse k l child = some c' ∧
        c'.inputs = child.inputs ∧ c'.outputs = child.outputs ∧
        child.nodes.length ≤ c'.nodes.length ∧
        (∀ p ∈ c'.connections,
          p.1.1 ∈ c'.nodes.map Prod.fst ∧ p.1.2 ∈ c'.nodes.map Prod.fst) := by
  intro l
  induction l with
  | nil =>
    intro k child _ hch
    exact ⟨child, rfl, rfl, rfl, le_refl _, hch⟩
  | cons p rest ih =>
    intro k child hmem hch
    obtain ⟨key, info⟩ := p
    have hpb : (key, info) ∈ better.connections := hmem _ (List.mem_cons_self _ _)
    have hrmem : ∀ q ∈ rest, q ∈ better.connections :=
      fun q hq => hmem q (List.mem_cons_of_mem _ hq)
    unfold Genome.cross_go
    by_cases hbr : (imContains worse.connections key && flips k) = true
    · rw [if_pos hbr]
      have hkw : (imLookup worse.connections key).isSome :=
        ((Bool.and_eq_true _ _).mp hbr).1
      cases hlw : imLookup worse.connections key with
      | none => rw [hlw] at hkw; cases hkw
      | some winfo =>
        have hwmem : (key, winfo) ∈ worse.connections := imLookup_mem hlw
        obtain ⟨c1, hc1eq, hc1conn, hc1in, hc1out, hc1keys, hc1id, hc1len⟩ :=
          cross_insert_node_ok child worse key.1 (hwend _ hwmem).1
        obtain ⟨c2, hc2eq, hc2conn, hc2in, hc2out, hc2keys, hc2id, hc2len⟩ :=
          cross_insert_node_ok c1 worse key.2 (hwend _ hwmem).2
        have hinv : ∀ p ∈ (imInsert c2.connections key winfo),
            p.1.1 ∈ c2.nodes.map Prod.fst ∧ p.1.2 ∈ c2.nodes.map Prod.fst := by
          intro p hp
          rcases mem_imInsert hp with hp | rfl
          · rw [hc2conn, hc1conn] at hp
            exact ⟨hc2keys _ (hc1keys _ (hch p hp).1), hc2keys _ (hc1keys _ (hch p hp).2)⟩
          · exact ⟨hc2keys _ hc1id, hc2id⟩
        obtain ⟨c', hceq, hcin, hcout, hclen, hcend⟩ :=
          ih (k + 1) (Genome.mk c2.inputs c2.outputs c2.nodes
            (imInsert c2.connections key winfo)) hrmem hinv
        refine ⟨c', ?_, ?_, ?_, ?_, hcend⟩
        · simp only [hc1eq, hc2eq, hlw]
          exact hceq
        · rw [hcin]
          show c2.inputs = child.inputs
          rw [hc2in, hc1in]
        · rw [hcout]
          show c2.outputs = child.outputs
          rw [hc2out, hc1out]
        · calc child.nodes.length ≤ c1.nodes.length := hc1len
            _ ≤ c2.nodes.length := hc2len
            _ ≤ c'.nodes.length := hclen
    · rw [if_neg hbr]
      obtain ⟨c1, hc1eq, hc1conn, hc1in, hc1out, hc1keys, hc1id, hc1len⟩ :=
        cross_insert_node_ok child better key.1 (hbend _ hpb).1
      obtain ⟨c2, hc2eq, hc2conn, hc2in, hc2out, hc2keys, hc2id, hc2len⟩ :=
        cross_insert_node_ok c1 better key.2 (hbend _ hpb).2
      have hinv : ∀ p ∈ (imInsert c2.connections key info),
          p.1.1 ∈ c2.nodes.map Prod.fst ∧ p.1.2 ∈ c2.nodes.map Prod.fst := by
        intro p hp
        rcases mem_imInsert hp with hp | rfl
        · rw [hc2conn, hc1conn] at hp
          exact ⟨hc2keys _ (hc1keys _ (hch p hp).1), hc2keys _ (hc1keys _ (hch p hp).2)⟩
        · exact ⟨hc2keys _ hc1id, hc2id⟩
      obtain ⟨c', hceq, hcin, hcout, hclen, hcend⟩ :=
        ih (k + 1) (Genome.mk c2.inputs c2.outputs c2.nodes
          (imInsert c2.connections key info)) hrmem hinv
      refine ⟨c', ?_, ?_, ?_, ?_, hcend⟩
      · simp only [hc1eq, hc2eq]
        exact hceq
      · rw [hcin]
        show c2.inputs = child.inputs
        rw [hc2in, hc1in]
      · rw [hcout]
        show c2.outputs = child.outputs
        rw [hc2out, hc1out]
      · calc child.nodes.length ≤ c1.nodes.length := hc1len
          _ ≤ c2.nodes.length := hc2len
          _ ≤ c'.nodes.length := hclen

/-- `Genome::cross` always completes on two well-formed genomes of matching
shape and its child is again well-formed (under the unchanged registry). -/
theorem cross_wf (flips : Nat → Bool) (better worse : Genome) (io : Nat × Nat)
    (innov : InnovationCounter)
    (hb : GenomeWF io innov better) (hw : GenomeWF io innov worse) :
    ∃ child, Genome.cross flips better worse = some child ∧
      GenomeWF io innov child := by
  obtain ⟨hb1, hb2, hb3, hb4, hb5, hb6⟩ := hb
  obtain ⟨hw1, hw2, hw3, hw4, hw5, hw6⟩ := hw
  unfold Genome.cross
  rw [if_pos ⟨hb1.trans hw1.symm, hb2.trans hw2.symm⟩]
  obtain ⟨c', hceq, hcin, hcout, hclen, hcend⟩ :=
    cross_go_ok flips better worse hb5 hw5 better.connections 0
      (Genome.new better.inputs better.outputs) (fun p hp => hp)
      (fun p hp => by cases hp)
  have hnew : (Genome.new better.inputs better.outputs).nodes.length =
      better.inputs + better.outputs := by
    simp [Genome.new]
  refine ⟨c', hceq, ?_, ?_, ?_, ?_, hcend, ?_⟩
  · rw [hcin]
    exact hb1
  · rw [hcout]
    exact hb2
  · rw [hcout]
    exact hb3
  · rw [hcin, hcout]
    show better.inputs + better.outputs ≤ c'.nodes.length
    rw [← hnew]
    exact hclen
  · intro p hp
    have hkey : (imLookup c'.connections p.1).isSome :=
      imLookup_isSome_of_mem_keys (List.mem_map_of_mem Prod.fst hp)
    rcases cross_go_keys flips better worse better.connections 0 _ c' hceq p.1 hkey
      with h0 | hm
    · cases h0
    · obtain ⟨q, hq, hq1⟩ := List.mem_map.mp hm
      have := hb6 q hq
      rw [hq1] at this
      exact this

theorem cross_loop_ok (o : Neat.GenOracle) (io : Nat × Nat) (innov : InnovationCounter) :
    ∀ (n i : Nat) (pop : List Organism),
      (∀ org ∈ pop, GenomeWF io innov org.genome) →
      i + 2 ≤ pop.length →
      ∃ pop', Neat.cross_loop o i n pop = some pop' ∧
        (∀ org ∈ pop', GenomeWF io innov org.genome) ∧
        pop'.length = pop.length + n := by
  intro n
  induction n with
  | zero =>
    intro i pop hWF _
    exact ⟨pop, rfl, hWF, by simp⟩
  | succ n ihn =>
    intro i pop hWF hi
    have hia : i < pop.length := by omega
    have hib : i + 1 < pop.length := by omega
    have hga : pop.get? i = some pop[i] := by
      rw [List.get?_eq_getElem?]
      exact List.getElem?_eq_getElem hia
    have hgb : pop.get? (i + 1) = some pop[i + 1] := by
      rw [List.get?_eq_getElem?]
      exact List.getElem?_eq_getElem hib
    obtain ⟨child, hceq, hcWF⟩ :=
      cross_wf (o.crossFlips i) pop[i].genome pop[i + 1].genome io innov
        (hWF _ (List.getElem?_mem (List.getElem?_eq_getElem hia)))
        (hWF _ (List.getElem?_mem (List.getElem?_eq_getElem hib)))
    have hWF' : ∀ org ∈ pop ++ [Organism.new child], GenomeWF io innov org.genome := by
      intro org ho
      rcases List.mem_append.mp ho with ho | ho
      · exact hWF org ho
      · obtain rfl : org = Organism.new child := by simpa using ho
        exact hcWF
    obtain ⟨pop', hp, hwf', hlen⟩ := ihn (i + 1) (pop ++ [Organism.new child]) hWF'
      (by simp only [List.length_append, List.length_cons, List.length_nil]; omega)
    refine ⟨pop', ?_, hwf', ?_⟩
    · unfold Neat.cross_loop
      simp only [hga, hgb, hceq]
      exact hp
    · simp only [List.length_append, List.length_cons, List.length_nil] at hlen
      omega

theorem clone_loop_ok (o : Neat.GenOracle) (settings : NeatSettings) (io : Nat × Nat) :
    ∀ (n i : Nat) (pop : List Organism) (innov : InnovationCounter),
      (∀ org ∈ pop, GenomeWF io innov org.genome) →
      i + 1 ≤ pop.length →
      ∃ r, Neat.clone_loop o settings i n pop innov = some r ∧
        r.1.length = pop.length + n := by
  intro n
  induction n with
  | zero =>
    intro i pop innov hWF _
    exact ⟨(pop, innov), rfl, by simp⟩
  | succ n ihn =>
    intro i pop innov hWF hi
    have hia : i < pop.length := by omega
    have hga : pop.get? i = some pop[i] := by
      rw [List.get?_eq_getElem?]
      exact List.getElem?_eq_getElem hia
    obtain ⟨r, hre, hrWF, hM⟩ :=
      mutate_wf (o.muts i) innov settings pop[i].genome io
        (hWF _ (List.getElem?_mem (List.getElem?_eq_getElem hia)))
    have hWF' : ∀ org ∈ pop ++ [Organism.new r.1], GenomeWF io r.2 org.genome := by
      intro org ho
      rcases List.mem_append.mp ho with ho | ho
      · exact genomeWF_mono hM (hWF org ho)
      · obtain rfl : org = Organism.new r.1 := by simpa using ho
        exact hrWF
    obtain ⟨r', hr', hlen⟩ := ihn (i + 1) (pop ++ [Organism.new r.1]) r.2 hWF'
      (by simp only [List.length_append, List.length_cons, List.length_nil]; omega)
    refine ⟨r', ?_, ?_⟩
    · unfold Neat.clone_loop
      simp only [hga, hre]
      exact hr'
    · simp only [List.length_append, List.length_cons, List.length_nil] at hlen
      omega

/-- With fewer than two entries, the crossover loop's `population[i+1]`
indexing is out of bounds and `generate` cannot complete. -/
theorem cross_loop_oob (o : Neat.GenOracle) (n i : Nat) (pop : List Organism)
    (hlen : pop.length ≤ i + 1) (hn : 1 ≤ n) :
    Neat.cross_loop o i n pop = none := by
  cases n with
  | zero => omega
  | succ m =>
    unfold Neat.cross_loop
    have h2 : pop.get? (i + 1) = none := by
      rw [List.get?_eq_getElem?, List.getElem?_eq_none]
      omega
    cases h1 : pop.get? i with
    | none => rfl
    | some a =>
      rw [h2]

/-- c8: `generate`'s refill is only total when enough organisms survive
`kill`.  (i) With fewer than two survivors while the crossover cap exceeds
the survivor count, the crossover loop indexes out of bounds and `generate`
does not complete.  (ii) With at least two (well-formed) survivors, at most
`size` of them, the indexing stays in bounds and the refill completes.
(iii) `kill` really can leave zero survivors: a singleton species losing its
coin flip empties the population. -/
theorem c8_generate_needs_two_survivors :
    (∀ (o : Neat.GenOracle) (st : NeatState),
      (o.shuf st.population).length < 2 →
      (o.shuf st.population).length < st.size * 3 / 4 →
      Neat.generate o st = none) ∧
    (∀ (o : Neat.GenOracle) (st : NeatState) (io : Nat × Nat),
      (o.shuf st.population).Perm st.population →
      2 ≤ st.population.length → st.population.length ≤ st.size →
      (∀ org ∈ st.population, GenomeWF io st.innovations org.genome) →
      (Neat.generate o st).isSome) ∧
    (Neat.kill wFit wKillFlips wStateScored = some wKilled ∧
      wKilled.population = []) := by
  refine ⟨?_, ?_, by decide, by decide⟩
  · intro o st h2 hcap
    unfold Neat.generate
    rw [if_pos hcap]
    rw [cross_loop_oob o _ 0 (o.shuf st.population) (by omega) (by omega)]
  · intro o st io hperm h2 hsize hWF
    have hplen : (o.shuf st.population).length = st.population.length := hperm.length_eq
    have hpWF : ∀ org ∈ o.shuf st.population, GenomeWF io st.innovations org.genome :=
      fun org ho => hWF org (hperm.subset ho)
    have hcap : st.size * 3 / 4 ≤ st.size := by
      calc st.size * 3 / 4 ≤ st.size * 4 / 4 := Nat.div_le_div_right (by omega)
        _ = st.size := Nat.mul_div_cancel _ (by omega)
    obtain ⟨pop1, heq, hWF1, hge1, hle⟩ :
        ∃ pop1, (if (o.shuf st.population).length < st.size * 3 / 4 then
            Neat.cross_loop o 0 (st.size * 3 / 4 - (o.shuf st.population).length)
              (o.shuf st.population)
          else some (o.shuf st.population)) = some pop1 ∧
          (∀ org ∈ pop1, GenomeWF io st.innovations org.genome) ∧
          1 ≤ pop1.length ∧ pop1.length ≤ st.size := by
      by_cases hb : (o.shuf st.population).length < st.size * 3 / 4
      · obtain ⟨pop1, hp1, hWF1, hlen1⟩ := cross_loop_ok o io st.innovations
          (st.size * 3 / 4 - (o.shuf st.population).length) 0 (o.shuf st.population)
          hpWF (by omega)
        exact ⟨pop1, by rw [if_pos hb]; exact hp1, hWF1, by omega, by omega⟩
      · exact ⟨o.shuf st.population, by rw [if_neg hb], hpWF, by omega, by omega⟩
    unfold Neat.generate
    simp only [heq]
    rw [if_neg (by omega : ¬st.size < pop1.length)]
    obtain ⟨r, hr, _⟩ := clone_loop_ok o st.settings io (st.size - pop1.length) 0 pop1
      st.innovations hWF1 (by omega)
    simp only [hr]
    rfl

/-- Concrete witness for c8: one survivor under a cap of 3 aborts `generate`
with an out-of-bounds index; two well-formed survivors complete the refill. -/
theorem c8_generate_needs_two_survivors_witness :
    ((wOracle.shuf wStateA.population).length < 2 ∧
      (wOracle.shuf wStateA.population).length < wStateA.size * 3 / 4 ∧
      Neat.generate wOracle wStateA = none) ∧
    ((wOracle.shuf wStateB.population).Perm wStateB.population ∧
      2 ≤ wStateB.population.length ∧ wStateB.population.length ≤ wStateB.size ∧
      (∀ org ∈ wStateB.population, GenomeWF (1, 1) wStateB.innovations org.genome) ∧
      (Neat.generate wOracle wStateB).isSome) :=
  ⟨⟨by decide, by decide,
    c8_generate_needs_two_survivors.1 wOracle wStateA (by decide) (by decide)⟩,
   ⟨List.Perm.refl _, by decide, by decide, by decide,
    c8_generate_needs_two_survivors.2.1 wOracle wStateB (1, 1) (List.Perm.refl _)
      (by decide) (by decide) (by decide)⟩⟩

/-! ### Termination of the recursive evaluation (claim C1) -/

theorem eval_zero (sig : ℚ → ℚ → ℚ) (net : Network) (node : Node) (vals : Nat → ℚ)
    (solved : List Nat) : Network.eval sig net 0 node vals solved = none := rfl

theorem eval_succ (sig : ℚ → ℚ → ℚ) (net : Network) (fuel : Nat) (node : Node)
    (vals : Nat → ℚ) (solved : List Nat) :
    Network.eval sig net (fuel + 1) node vals solved =
      match Network.go_edges net (Network.eval sig net fuel) node.inputs vals solved with
      | some (s, v1, s1) => some (sig s node.activation, v1, s1)
      | none => none := rfl

theorem go_edges_nil (net : Network)
    (recv : Node → (Nat → ℚ) → List Nat → Option (ℚ × (Nat → ℚ) × List Nat))
    (vals : Nat → ℚ) (solved : List Nat) :
    Network.go_edges net recv [] vals solved = some (0, vals, solved) := rfl

theorem go_edges_cons (net : Network)
    (recv : Node → (Nat → ℚ) → List Nat → Option (ℚ × (Nat → ℚ) × List Nat))
    (e : Edge) (rest : List Edge) (vals : Nat → ℚ) (solved : List Nat) :
    Network.go_edges net recv (e :: rest) vals solved =
      if e.start ∈ solved then
        match Network.go_edges net recv rest vals solved with
        | some (acc, v2, s2) => some (vals e.start * e.weight + acc, v2, s2)
        | none => none
      else
        match imLookup net.nodes e.start with
        | none => none
        | some nd =>
          match recv nd vals (e.start :: solved) with
          | none => none
          | some (v, v1, s1) =>
            match Network.go_edges net recv rest (updF v1 e.start v) s1 with
            | some (acc, v2, s2) => some (v * e.weight + acc, v2, s2)
            | none => none := rfl

theorem prop_go_nil (sig : ℚ → ℚ → ℚ) (net : Network) (fuel : Nat) (vals : Nat → ℚ)
    (solved : List Nat) : Network.prop_go sig net fuel [] vals solved = some vals := rfl

theorem prop_go_cons (sig : ℚ → ℚ → ℚ) (net : Network) (fuel : Nat) (i : Nat)
    (rest : List Nat) (vals : Nat → ℚ) (solved : List Nat) :
    Network.prop_go sig net fuel (i :: rest) vals solved =
      match imLookup net.nodes i with
      | none => none
      | some node =>
        match Network.eval sig net fuel node vals solved with
        | none => none
        | some (v, v1, s1) => Network.prop_go sig net fuel rest (updF v1 i v) s1 := rfl

theorem filter_imp_length {α : Type} (p q : α → Bool)
    (h : ∀ a, q a = true → p a = true) :
    ∀ l : List α, (l.filter q).length ≤ (l.filter p).length := by
  intro l
  induction l with
  | nil => simp
  | cons a rest ih =>
    by_cases hq : q a = true
    · rw [List.filter_cons_of_pos hq, List.filter_cons_of_pos (h a hq)]
      simpa using ih
    · rw [List.filter_cons_of_neg (by simpa using hq)]
      by_cases hp : p a = true
      · rw [List.filter_cons_of_pos hp]
        calc (rest.filter q).length ≤ (rest.filter p).length := ih
          _ ≤ _ := by simp
      · rw [List.filter_cons_of_neg (by simpa using hp)]
        exact ih

/-- Growing the solved set never increases the unsolved count. -/
theorem unsolved_mono (net : Network) {s1 s2 : List Nat}
    (h : ∀ k ∈ s1, k ∈ s2) : unsolvedCount net s2 ≤ unsolvedCount net s1 := by
  refine filter_imp_length _ _ ?_ (keysOf net.nodes)
  intro a ha
  simp only [decide_eq_true_eq] at ha ⊢
  intro hin
  exact ha (h a hin)

theorem unsolved_le (net : Network) (solved : List Nat) :
    unsolvedCount net solved ≤ net.nodes.length := by
  calc unsolvedCount net solved ≤ (keysOf net.nodes).length :=
        List.length_filter_le _ _
    _ = net.nodes.length := List.length_map _ _

theorem filter_notmem_insert_lt (solved : List Nat) (s : Nat) (hns : s ∉ solved) :
    ∀ l : List Nat, s ∈ l →
      (l.filter (fun k => decide (k ∉ s :: solved))).length <
        (l.filter (fun k => decide (k ∉ solved))).length := by
  have himp : ∀ a : Nat, decide (a ∉ s :: solved) = true → decide (a ∉ solved) = true := by
    intro a ha
    simp only [decide_eq_true_eq, List.mem_cons] at ha ⊢
    intro hin
    exact ha (Or.inr hin)
  intro l
  induction l with
  | nil => intro hs; cases hs
  | cons a rest ih =>
    intro hs
    by_cases has : a = s
    · subst has
      rw [List.filter_cons_of_neg (by simp), List.filter_cons_of_pos (by simpa using hns)]
      have := filter_imp_length _ _ himp rest
      simpa using Nat.lt_succ_of_le this
    · have hsrest : s ∈ rest := by
        rcases List.mem_cons.mp hs with h | h
        · exact absurd h.symm has
        · exact h
      by_cases hmem : a ∈ solved
      · rw [List.filter_cons_of_neg (by simp [hmem]),
          List.filter_cons_of_neg (by simp [hmem])]
        exact ih hsrest
      · rw [List.filter_cons_of_pos (by simp [hmem, has]),
          List.filter_cons_of_pos (by simp [hmem])]
        simpa using ih hsrest

/-- Marking a fresh node id strictly decreases the unsolved count. -/
theorem unsolved_insert_lt (net : Network) (solved : List Nat) (s : Nat)
    (hs : s ∈ keysOf net.nodes) (hns : s ∉ solved) :
    unsolvedCount net (s :: solved) < unsolvedCount net solved :=
  filter_notmem_insert_lt solved s hns (keysOf net.nodes) hs

/-- Fuel sufficiency: with fuel exceeding the number of unsolved node ids,
`eval` (and its edge loop) always returns a result, and the solved set only
grows.  This holds for every network whose edges reference existing nodes —
cyclic or not: marking-before-recursing means each node is recursed into at
most once. -/
theorem eval_total (sig : ℚ → ℚ → ℚ) (net : Network) (hWF : NetWF net) :
    ∀ fuel : Nat,
      (∀ (edges : List Edge) (vals : Nat → ℚ) (solved : List Nat),
        (∀ e ∈ edges, e.start ∈ keysOf net.nodes) →
        unsolvedCount net solved ≤ fuel →
        ∃ r, Network.go_edges net (Network.eval sig net fuel) edges vals solved = some r ∧
          ∀ k ∈ solved, k ∈ r.2.2) ∧
      (∀ (node : Node) (vals : Nat → ℚ) (solved : List Nat),
        (∀ e ∈ node.inputs, e.start ∈ keysOf net.nodes) →
        unsolvedCount net solved < fuel →
        ∃ r, Network.eval sig net fuel node vals solved = some r ∧
          ∀ k ∈ solved, k ∈ r.2.2) := by
  intro fuel
  induction fuel with
  | zero =>
    constructor
    · intro edges
      induction edges with
      | nil =>
        intro vals solved _ _
        exact ⟨(0, vals, solved), rfl, fun k hk => hk⟩
      | cons e rest ihe =>
        intro vals solved hed hcnt
        by_cases hs : e.start ∈ solved
        · obtain ⟨r, hr, hsub⟩ :=
            ihe vals solved (fun x hx => hed x (List.mem_cons_of_mem _ hx)) hcnt
          obtain ⟨acc, v2, s2⟩ := r
          refine ⟨(vals e.start * e.weight + acc, v2, s2), ?_, hsub⟩
          rw [go_edges_cons, if_pos hs, hr]
        · exfalso
          have := unsolved_insert_lt net solved e.start (hed e (List.mem_cons_self _ _)) hs
          omega
    · intro node vals solved _ h
      exact absurd h (Nat.not_lt_zero _)
  | succ fuel ih =>
    have hEval : ∀ (node : Node) (vals : Nat → ℚ) (solved : List Nat),
        (∀ e ∈ node.inputs, e.start ∈ keysOf net.nodes) →
        unsolvedCount net solved < fuel + 1 →
        ∃ r, Network.eval sig net (fuel + 1) node vals solved = some r ∧
          ∀ k ∈ solved, k ∈ r.2.2 := by
      intro node vals solved hed hcnt
      obtain ⟨r, hr, hsub⟩ := ih.1 node.inputs vals solved hed (by omega)
      obtain ⟨s, v1, s1⟩ := r
      refine ⟨(sig s node.activation, v1, s1), ?_, hsub⟩
      rw [eval_succ, hr]
    constructor
    · intro edges
      induction edges with
      | nil =>
        intro vals solved _ _
        exact ⟨(0, vals, solved), rfl, fun k hk => hk⟩
      | cons e rest ihe =>
        intro vals solved hed hcnt
        by_cases hs : e.start ∈ solved
        · obtain ⟨r, hr, hsub⟩ :=
            ihe vals solved (fun x hx => hed x (List.mem_cons_of_mem _ hx)) hcnt
          obtain ⟨acc, v2, s2⟩ := r
          refine ⟨(vals e.start * e.weight + acc, v2, s2), ?_, hsub⟩
          rw [go_edges_cons, if_pos hs, hr]
        · have hkey : e.start ∈ keysOf net.nodes := hed e (List.mem_cons_self _ _)
          have hlk : (imLookup net.nodes e.start).isSome :=
            imLookup_isSome_of_mem_keys hkey
          cases hnd : imLookup net.nodes e.start with
          | none => rw [hnd] at hlk; cases hlk
          | some nd =>
            have hedn : ∀ e2 ∈ nd.inputs, e2.start ∈ keysOf net.nodes :=
              fun e2 he2 => hWF (e.start, nd) (imLookup_mem hnd) e2 he2
            have hlt : unsolvedCount net (e.start :: solved) < fuel + 1 := by
              have := unsolved_insert_lt net solved e.start hkey hs
              omega
            obtain ⟨r1, hr1, hsub1⟩ := hEval nd vals (e.start :: solved) hedn hlt
            obtain ⟨v, v1, s1⟩ := r1
            have hsubs : ∀ k ∈ solved, k ∈ s1 :=
              fun k hk => hsub1 k (List.mem_cons_of_mem _ hk)
            have hcnt2 : unsolvedCount net s1 ≤ fuel + 1 :=
              le_trans (unsolved_mono net hsubs) hcnt
            obtain ⟨r2, hr2, hsub2⟩ := ihe (updF v1 e.start v) s1
              (fun x hx => hed x (List.mem_cons_of_mem _ hx)) hcnt2
            obtain ⟨acc, v2, s2⟩ := r2
            refine ⟨(v * e.weight + acc, v2, s2), ?_, fun k hk => hsub2 k (hsubs k hk)⟩
            rw [go_edges_cons, if_neg hs]
            simp only [hnd, hr1, hr2]
    · exact hEval

theorem prop_go_total (sig : ℚ → ℚ → ℚ) (net : Network) (hWF : NetWF net) (fuel : Nat) :
    ∀ (ids : List Nat) (vals : Nat → ℚ) (solved : List Nat),
      (∀ i ∈ ids, i ∈ keysOf net.nodes) →
      unsolvedCount net solved < fuel →
      (Network.prop_go sig net fuel ids vals solved).isSome := by
  intro ids
  induction ids with
  | nil =>
    intro vals solved _ _
    rw [prop_go_nil]
    rfl
  | cons i rest ih =>
    intro vals solved hids hcnt
    have hlk : (imLookup net.nodes i).isSome :=
      imLookup_isSome_of_mem_keys (hids i (List.mem_cons_self _ _))
    cases hnd : imLookup net.nodes i with
    | none => rw [hnd] at hlk; cases hlk
    | some nd =>
      have hedn : ∀ e ∈ nd.inputs, e.start ∈ keysOf net.nodes :=
        fun e he => hWF (i, nd) (imLookup_mem hnd) e he
      obtain ⟨r, hr, hsub⟩ := (eval_total sig net hWF fuel).2 nd vals solved hedn hcnt
      obtain ⟨v, v1, s1⟩ := r
      rw [prop_go_cons]
      simp only [hnd, hr]
      exact ih (updF v1 i v) s1 (fun x hx => hids x (List.mem_cons_of_mem _ hx))
        (lt_of_le_of_lt (unsolved_mono net hsub) hcnt)

theorem set_inputs_go_total (nodes : List (Nat × Node)) :
    ∀ (ins : List ℚ) (pos : Nat) (vals : Nat → ℚ),
      pos + ins.length ≤ nodes.length →
      ∃ u, Network.set_inputs_go nodes pos ins vals = some u := by
  intro ins
  induction ins with
  | nil => intro pos vals _; exact ⟨vals, rfl⟩
  | cons x rest ih =>
    intro pos vals hlen
    have hpos : pos < nodes.length := by
      simp only [List.length_cons] at hlen
      omega
    have hg : nodes.get? pos = some nodes[pos] := by
      rw [List.get?_eq_getElem?]
      exact List.getElem?_eq_getElem hpos
    obtain ⟨u, hu⟩ := ih (pos + 1) (updF vals nodes[pos].1 x)
      (by simp only [List.length_cons] at hlen; omega)
    refine ⟨u, ?_⟩
    unfold Network.set_inputs_go
    rw [hg]
    exact hu

/-- c1 (amended): `prop` terminates on *every* network whose edges reference
existing nodes — cyclic networks included — once the fuel exceeds the node
count; the mark-before-recurse discipline lets each node be recursed into at
most once per call, so the recursion of `eval` is bounded and cannot recurse
indefinitely. -/
theorem c1_prop_terminates_on_all_networks
    (sig : ℚ → ℚ → ℚ) (net : Network) (ins : List ℚ) (vals : Nat → ℚ) (fuel : Nat)
    (hWF : NetWF net)
    (hlen : ins.length = net.inputs)
    (hnodes : net.inputs ≤ net.nodes.length)
    (hout : ∀ i ∈ List.range' net.inputs net.outputs, i ∈ keysOf net.nodes)
    (hfuel : net.nodes.length < fuel) :
    (Network.prop sig net fuel ins vals).isSome := by
  unfold Network.prop
  rw [if_pos hlen]
  obtain ⟨u, hu⟩ := set_inputs_go_total net.nodes ins 0 vals (by omega)
  rw [hu]
  exact prop_go_total sig net hWF fuel _ u _ hout
    (lt_of_le_of_lt (unsolved_le net _) hfuel)

/-- Counterexample to c1 as stated: this network is compiled from a genome
with a true cycle (`2→3→2` feeding the output), yet `prop` terminates on it
with a small fuel bound — the recursion is not unbounded. -/
theorem c1_counterexample :
    Network.new cGenomeCyc = some cNetCyc ∧
    imLookup cNetCyc.nodes 2 = some ⟨1, [⟨3, 1⟩]⟩ ∧
    imLookup cNetCyc.nodes 3 = some ⟨1, [⟨2, 1⟩]⟩ ∧
    (Network.prop cSig cNetCyc 5 [0] (fun _ => 0)).isSome := by
  refine ⟨by decide, by decide, by decide, by decide⟩

/-- Concrete witness for c1: the termination bound applied to the cyclic
network. -/
theorem c1_prop_terminates_on_all_networks_witness :
    NetWF cNetCyc ∧ ([(0 : ℚ)].length = cNetCyc.inputs) ∧
    cNetCyc.inputs ≤ cNetCyc.nodes.length ∧
    (∀ i ∈ List.range' cNetCyc.inputs cNetCyc.outputs, i ∈ keysOf cNetCyc.nodes) ∧
    cNetCyc.nodes.length < 6 ∧
    (Network.prop cSig cNetCyc 6 [0] (fun _ => 1)).isSome :=
  ⟨by decide, by decide, by decide, by decide, by decide,
    c1_prop_terminates_on_all_networks cSig cNetCyc [0] (fun _ => 1) 6
      (by decide) (by decide) (by decide) (by decide) (by decide)⟩

/-! ### Two-run congruence of the evaluation on acyclic networks (claim C7) -/

theorem go_edges_cong_of_eval_cong (sig : ℚ → ℚ → ℚ) (net : Network)
    (rank : Nat → Nat) (hr : rankOK net rank) (f1 f2 : Nat)
    (hNode : ∀ (node : Node) (v1 v2 : Nat → ℚ) (solved : List Nat) (R : Nat)
      (q1 q2 : ℚ × (Nat → ℚ) × List Nat),
      (∀ e ∈ node.inputs, rank e.start < R) →
      (∀ k ∈ solved, rank k < R → v1 k = v2 k) →
      Network.eval sig net f1 node v1 solved = some q1 →
      Network.eval sig net f2 node v2 solved = some q2 →
      CongOut rank solved R q1 q2 v1 v2) :
    ∀ (edges : List Edge) (v1 v2 : Nat → ℚ) (solved : List Nat) (R : Nat)
      (r1 r2 : ℚ × (Nat → ℚ) × List Nat),
      (∀ e ∈ edges, rank e.start < R) →
      (∀ k ∈ solved, rank k < R → v1 k = v2 k) →
      Network.go_edges net (Network.eval sig net f1) edges v1 solved = some r1 →
      Network.go_edges net (Network.eval sig net f2) edges v2 solved = some r2 →
      CongOut rank solved R r1 r2 v1 v2 := by
  intro edges
  induction edges with
  | nil =>
    intro v1 v2 solved R r1 r2 _ hag h1 h2
    rw [go_edges_nil] at h1 h2
    obtain rfl := Option.some.inj h1
    obtain rfl := Option.some.inj h2
    exact ⟨rfl, rfl, fun k hk => hk, fun k _ => rfl, fun k _ => rfl,
      fun k hk hnk => absurd hk hnk⟩
  | cons e rest ihe =>
    intro v1 v2 solved R r1 r2 hed hag h1 h2
    have hedr : ∀ x ∈ rest, rank x.start < R :=
      fun x hx => hed x (List.mem_cons_of_mem _ hx)
    have heR : rank e.start < R := hed e (List.mem_cons_self _ _)
    by_cases hs : e.start ∈ solved
    · cases hrest1 : Network.go_edges net (Network.eval sig net f1) rest v1 solved with
      | none =>
        simp only [go_edges_cons, if_pos hs, hrest1] at h1
        exact Option.noConfusion h1
      | some p1 =>
        cases hrest2 : Network.go_edges net (Network.eval sig net f2) rest v2 solved with
        | none =>
          simp only [go_edges_cons, if_pos hs, hrest2] at h2
          exact Option.noConfusion h2
        | some p2 =>
          obtain ⟨acc1, u1, z1⟩ := p1
          obtain ⟨acc2, u2, z2⟩ := p2
          simp only [go_edges_cons, if_pos hs, hrest1] at h1
          simp only [go_edges_cons, if_pos hs, hrest2] at h2
          obtain rfl := Option.some.inj h1
          obtain rfl := Option.some.inj h2
          obtain ⟨hv', hss', hsub', hfr1', hfr2', hnew'⟩ :=
            ihe v1 v2 solved R (acc1, u1, z1) (acc2, u2, z2) hedr hag hrest1 hrest2
          simp only at hv' hss' hsub' hfr1' hfr2' hnew'
          obtain rfl := hv'
          obtain rfl := hss'
          exact ⟨by simp only; rw [hag e.start hs heR], rfl, hsub', hfr1', hfr2', hnew'⟩
    · cases hnd1 : imLookup net.nodes e.start with
      | none =>
        simp only [go_edges_cons, if_neg hs, hnd1] at h1
        exact Option.noConfusion h1
      | some nd =>
        cases hev1 : Network.eval sig net f1 nd v1 (e.start :: solved) with
        | none =>
          simp only [go_edges_cons, if_neg hs, hnd1, hev1] at h1
          exact Option.noConfusion h1
        | some q1 =>
          cases hev2 : Network.eval sig net f2 nd v2 (e.start :: solved) with
          | none =>
            simp only [go_edges_cons, if_neg hs, hnd1, hev2] at h2
            exact Option.noConfusion h2
          | some q2 =>
            obtain ⟨va, w1, t1⟩ := q1
            obtain ⟨vb, w2, t2⟩ := q2
            have hagn : ∀ k ∈ e.start :: solved, rank k < rank e.start → v1 k = v2 k := by
              intro k hk hrk
              rcases List.mem_cons.mp hk with rfl | hk'
              · exact absurd hrk (lt_irrefl _)
              · exact hag k hk' (lt_trans hrk heR)
            obtain ⟨hv, hss, hsub, hfr1, hfr2, hnew⟩ :=
              hNode nd v1 v2 (e.start :: solved) (rank e.start) (va, w1, t1) (vb, w2, t2)
                (fun x hx => hr (e.start, nd) (imLookup_mem hnd1) x hx) hagn hev1 hev2
            simp only at hv hss hsub hfr1 hfr2 hnew
            obtain rfl := hv
            obtain rfl := hss
            cases hgr1 : Network.go_edges net (Network.eval sig net f1) rest
                (updF w1 e.start va) t1 with
            | none =>
              simp only [go_edges_cons, if_neg hs, hnd1, hev1, hgr1] at h1
              exact Option.noConfusion h1
            | some p1 =>
              cases hgr2 : Network.go_edges net (Network.eval sig net f2) rest
                  (updF w2 e.start va) t1 with
              | none =>
                simp only [go_edges_cons, if_neg hs, hnd1, hev2, hgr2] at h2
                exact Option.noConfusion h2
              | some p2 =>
                obtain ⟨acc1, u1, z1⟩ := p1
                obtain ⟨acc2, u2, z2⟩ := p2
                simp only [go_edges_cons, if_neg hs, hnd1, hev1, hgr1] at h1
                simp only [go_edges_cons, if_neg hs, hnd1, hev2, hgr2] at h2
                obtain rfl := Option.some.inj h1
                obtain rfl := Option.some.inj h2
                have hag2 : ∀ k ∈ t1, rank k < R →
                    updF w1 e.start va k = updF w2 e.start va k := by
                  intro k hk hrk
                  by_cases hke : k = e.start
                  · subst hke
                    simp [updF]
                  · simp only [updF, if_neg hke]
                    by_cases hks : k ∈ solved
                    · rw [hfr1 k (Or.inl (List.mem_cons_of_mem _ hks)),
                        hfr2 k (Or.inl (List.mem_cons_of_mem _ hks))]
                      exact hag k hks hrk
                    · have hkes : k ∉ e.start :: solved := by
                        intro hmem
                        rcases List.mem_cons.mp hmem with h | h
                        · exact hke h
                        · exact hks h
                      exact (hnew k hk hkes).1
                obtain ⟨hv', hss', hsub', hfr1', hfr2', hnew'⟩ :=
                  ihe (updF w1 e.start va) (updF w2 e.start va) t1 R
                    (acc1, u1, z1) (acc2, u2, z2) hedr hag2 hgr1 hgr2
                simp only at hv' hss' hsub' hfr1' hfr2' hnew'
                obtain rfl := hv'
                obtain rfl := hss'
                have hest1 : e.start ∈ t1 := hsub e.start (List.mem_cons_self _ _)
                refine ⟨rfl, rfl, ?_, ?_, ?_, ?_⟩
                · intro k hk
                  exact hsub' k (hsub k (List.mem_cons_of_mem _ hk))
                · intro k hk
                  simp only
                  have hke : k ≠ e.start := by
                    rintro rfl
                    rcases hk with hk | hk
                    · exact hs hk
                    · exact hk (hsub' e.start hest1)
                  have hku : u1 k = updF w1 e.start va k := by
                    rcases hk with hk | hk
                    · exact hfr1' k (Or.inl (hsub k (List.mem_cons_of_mem _ hk)))
                    · exact hfr1' k (Or.inr hk)
                  rw [hku]
                  simp only [updF, if_neg hke]
                  rcases hk with hk | hk
                  · exact hfr1 k (Or.inl (List.mem_cons_of_mem _ hk))
                  · exact hfr1 k (Or.inr (fun ht => hk (hsub' k ht)))
                · intro k hk
                  simp only
                  have hke : k ≠ e.start := by
                    rintro rfl
                    rcases hk with hk | hk
                    · exact hs hk
                    · exact hk (hsub' e.start hest1)
                  have hku : u2 k = updF w2 e.start va k := by
                    rcases hk with hk | hk
                    · exact hfr2' k (Or.inl (hsub k (List.mem_cons_of_mem _ hk)))
                    · exact hfr2' k (Or.inr hk)
                  rw [hku]
                  simp only [updF, if_neg hke]
                  rcases hk with hk | hk
                  · exact hfr2 k (Or.inl (List.mem_cons_of_mem _ hk))
                  · exact hfr2 k (Or.inr (fun ht => hk (hsub' k ht)))
                · intro k hkz hks
                  simp only at hkz ⊢
                  by_cases hkt : k ∈ t1
                  · have h1' : u1 k = updF w1 e.start va k := hfr1' k (Or.inl hkt)
                    have h2' : u2 k = updF w2 e.start va k := hfr2' k (Or.inl hkt)
                    by_cases hke : k = e.start
                    · subst hke
                      refine ⟨?_, heR⟩
                      rw [h1', h2']
                      simp [updF]
                    · have hkes : k ∉ e.start :: solved := by
                        intro hmem
                        rcases List.mem_cons.mp hmem with h | h
                        · exact hke h
                        · exact hks h
                      obtain ⟨hw, hrk⟩ := hnew k hkt hkes
                      refine ⟨?_, lt_trans hrk heR⟩
                      rw [h1', h2']
                      simp only [updF, if_neg hke]
                      exact hw
                  · exact hnew' k hkz hkt

/-- On a network certified acyclic by a topological rank, two `eval` runs
from value stores that agree on the relevantly-ranked solved ids produce the
same value and the same solved set, regardless of the two fuel amounts. -/
theorem eval_cong (sig : ℚ → ℚ → ℚ) (net : Network) (rank : Nat → Nat)
    (hr : rankOK net rank) :
    ∀ f1 f2 : Nat, ∀ (node : Node) (v1 v2 : Nat → ℚ) (solved : List Nat) (R : Nat)
      (q1 q2 : ℚ × (Nat → ℚ) × List Nat),
      (∀ e ∈ node.inputs, rank e.start < R) →
      (∀ k ∈ solved, rank k < R → v1 k = v2 k) →
      Network.eval sig net f1 node v1 solved = some q1 →
      Network.eval sig net f2 node v2 solved = some q2 →
      CongOut rank solved R q1 q2 v1 v2 := by
  intro f1
  induction f1 with
  | zero =>
    intro f2 node v1 v2 solved R q1 q2 _ _ h1 _
    rw [eval_zero] at h1
    exact Option.noConfusion h1
  | succ f1 ih =>
    intro f2 node v1 v2 solved R q1 q2 hed hag h1 h2
    cases f2 with
    | zero =>
      rw [eval_zero] at h2
      exact Option.noConfusion h2
    | succ f2 =>
      cases hg1 : Network.go_edges net (Network.eval sig net f1) node.inputs v1 solved with
      | none =>
        simp only [eval_succ, hg1] at h1
        exact Option.noConfusion h1
      | some p1 =>
        cases hg2 : Network.go_edges net (Network.eval sig net f2) node.inputs v2 solved with
        | none =>
          simp only [eval_succ, hg2] at h2
          exact Option.noConfusion h2
        | some p2 =>
          obtain ⟨s1, w1, t1⟩ := p1
          obtain ⟨s2, w2, t2⟩ := p2
          simp only [eval_succ, hg1] at h1
          simp only [eval_succ, hg2] at h2
          obtain rfl := Option.some.inj h1
          obtain rfl := Option.some.inj h2
          obtain ⟨hv, hss, hsub, hfr1, hfr2, hnew⟩ :=
            go_edges_cong_of_eval_cong sig net rank hr f1 f2
              (fun nd a1 a2 sv Rr b1 b2 x y z w => ih f2 nd a1 a2 sv Rr b1 b2 x y z w)
              node.inputs v1 v2 solved R (s1, w1, t1) (s2, w2, t2) hed hag hg1 hg2
          simp only at hv hss hsub hfr1 hfr2 hnew
          obtain rfl := hv
          obtain rfl := hss
          exact ⟨rfl, rfl, hsub, hfr1, hfr2, hnew⟩

/-- Two runs of the output loop from stores agreeing on the solved ids end
in stores agreeing on every id they started agreeing on, and on every
evaluated output id. -/
theorem prop_go_cong (sig : ℚ → ℚ → ℚ) (net : Network) (rank : Nat → Nat)
    (hr : rankOK net rank) :
    ∀ (ids : List Nat) (f1 f2 : Nat) (b1 b2 : Nat → ℚ) (solved : List Nat)
      (o1 o2 : Nat → ℚ),
      (∀ k ∈ solved, b1 k = b2 k) →
      Network.prop_go sig net f1 ids b1 solved = some o1 →
      Network.prop_go sig net f2 ids b2 solved = some o2 →
      ∀ k, (b1 k = b2 k ∨ k ∈ ids) → o1 k = o2 k := by
  intro ids
  induction ids with
  | nil =>
    intro f1 f2 b1 b2 solved o1 o2 _ h1 h2 k hk
    rw [prop_go_nil] at h1 h2
    obtain rfl := Option.some.inj h1
    obtain rfl := Option.some.inj h2
    rcases hk with hk | hk
    · exact hk
    · cases hk
  | cons i rest ih =>
    intro f1 f2 b1 b2 solved o1 o2 hag h1 h2
    cases hnd : imLookup net.nodes i with
    | none =>
      simp only [prop_go_cons, hnd] at h1
      exact Option.noConfusion h1
    | some node =>
      cases he1 : Network.eval sig net f1 node b1 solved with
      | none =>
        simp only [prop_go_cons, hnd, he1] at h1
        exact Option.noConfusion h1
      | some q1 =>
        cases he2 : Network.eval sig net f2 node b2 solved with
        | none =>
          simp only [prop_go_cons, hnd, he2] at h2
          exact Option.noConfusion h2
        | some q2 =>
          obtain ⟨v, w1, t1⟩ := q1
          obtain ⟨v', w2, t2⟩ := q2
          simp only [prop_go_cons, hnd, he1] at h1
          simp only [prop_go_cons, hnd, he2] at h2
          obtain ⟨hv, hss, hsub, hfr1, hfr2, hnew⟩ :=
            eval_cong sig net rank hr f1 f2 node b1 b2 solved (rank i)
              (v, w1, t1) (v', w2, t2)
              (fun e he => hr (i, node) (imLookup_mem hnd) e he)
              (fun k hk _ => hag k hk) he1 he2
          simp only at hv hss hsub hfr1 hfr2 hnew
          obtain rfl := hv
          obtain rfl := hss
          have hct : ∀ k ∈ t1, updF w1 i v k = updF w2 i v k := by
            intro k hk
            by_cases hki : k = i
            · subst hki
              simp [updF]
            · simp only [updF, if_neg hki]
              by_cases hks : k ∈ solved
              · rw [hfr1 k (Or.inl hks), hfr2 k (Or.inl hks)]
                exact hag k hks
              · exact (hnew k hk hks).1
          have hrest := ih f1 f2 (updF w1 i v) (updF w2 i v) t1 o1 o2 hct h1 h2
          intro k hk
          rcases hk with hb | hmem
          · refine hrest k (Or.inl ?_)
            by_cases hki : k = i
            · subst hki
              simp [updF]
            · simp only [updF, if_neg hki]
              by_cases hkt : k ∈ t1
              · by_cases hks : k ∈ solved
                · rw [hfr1 k (Or.inl hks), hfr2 k (Or.inl hks)]
                  exact hb
                · exact (hnew k hkt hks).1
              · rw [hfr1 k (Or.inr hkt), hfr2 k (Or.inr hkt)]
                exact hb
          · rcases List.mem_cons.mp hmem with rfl | hmem'
            · refine hrest k (Or.inl ?_)
              simp [updF]
            · exact hrest k (Or.inr hmem')

theorem set_inputs_go_nil (nodes : List (Nat × Node)) (pos : Nat) (vals : Nat → ℚ) :
    Network.set_inputs_go nodes pos [] vals = some vals := rfl

theorem set_inputs_go_cons (nodes : List (Nat × Node)) (pos : Nat) (x : ℚ)
    (rest : List ℚ) (vals : Nat → ℚ) :
    Network.set_inputs_go nodes pos (x :: rest) vals =
      match nodes.get? pos with
      | none => none
      | some p => Network.set_inputs_go nodes (pos + 1) rest (updF vals p.1 x) := rfl

/-- Setting the same inputs positionally from two different stores yields
stores that agree on every previously-agreeing id and on the key of every
written position. -/
theorem set_inputs_go_agree (nodes : List (Nat × Node)) :
    ∀ (ins : List ℚ) (pos : Nat) (vals1 vals2 a1 a2 : Nat → ℚ),
      Network.set_inputs_go nodes pos ins vals1 = some a1 →
      Network.set_inputs_go nodes pos ins vals2 = some a2 →
      ∀ k, (vals1 k = vals2 k ∨
        ∃ j, pos ≤ j ∧ j < pos + ins.length ∧ (nodes.get? j).map Prod.fst = some k) →
      a1 k = a2 k := by
  intro ins
  induction ins with
  | nil =>
    intro pos vals1 vals2 a1 a2 h1 h2 k hk
    rw [set_inputs_go_nil] at h1 h2
    obtain rfl := Option.some.inj h1
    obtain rfl := Option.some.inj h2
    rcases hk with hk | ⟨j, hj1, hj2, _⟩
    · exact hk
    · simp only [List.length_nil, Nat.add_zero] at hj2
      exact absurd hj1 (Nat.not_le_of_lt hj2)
  | cons x rest ih =>
    intro pos vals1 vals2 a1 a2 h1 h2 k hk
    cases hg : nodes.get? pos with
    | none =>
      rw [set_inputs_go_cons] at h1
      simp only [hg] at h1
      exact Option.noConfusion h1
    | some p =>
      rw [set_inputs_go_cons] at h1 h2
      simp only [hg] at h1 h2
      refine ih (pos + 1) (updF vals1 p.1 x) (updF vals2 p.1 x) a1 a2 h1 h2 k ?_
      rcases hk with hk | ⟨j, hj1, hj2, hjk⟩
      · left
        by_cases hkp : k = p.1
        · subst hkp
          simp [updF]
        · simp only [updF, if_neg hkp]
          exact hk
      · by_cases hjp : j = pos
        · subst hjp
          rw [hg] at hjk
          have hkp : p.1 = k := by simpa using hjk
          left
          subst hkp
          simp [updF]
        · right
          refine ⟨j, ?_, ?_, hjk⟩
          · omega
          · simp only [List.length_cons] at hj2
            omega

/-- With an io-aligned node table, the positions `get_outputs` reads carry
exactly the output ids `inputs..inputs+outputs`. -/
theorem get_outputs_keys (net : Network) (hal : ioAligned net) :
    ∀ p ∈ (net.nodes.drop net.inputs).take net.outputs,
      p.1 ∈ List.range' net.inputs net.outputs := by
  intro p hp
  obtain ⟨i, hi⟩ := List.mem_iff_getElem?.mp hp
  have hilt : i < net.outputs := by
    have hlen : i < ((net.nodes.drop net.inputs).take net.outputs).length := by
      by_contra hge
      rw [List.getElem?_eq_none (Nat.le_of_not_lt hge)] at hi
      exact Option.noConfusion hi
    rw [List.length_take] at hlen
    exact lt_of_lt_of_le hlen (Nat.min_le_left _ _)
  rw [List.getElem?_take, if_pos hilt, List.getElem?_drop] at hi
  have hk := hal (net.inputs + i) (by omega)
  rw [List.get?_eq_getElem?, hi] at hk
  have hp1 : p.1 = net.inputs + i := by simpa using hk
  rw [List.mem_range'_1]
  omega

/-- c7 (amended): on a compiled network that is genuinely acyclic — certified
by a topological rank on node ids — and whose node table is io-aligned (as
every network compiled from a `Genome::new`-seeded genome is), `reset`
followed by two successive `prop` calls on the same inputs reads identical
output vectors both times: the result depends only on the structure and the
inputs.  Without acyclicity this fails — see the counterexample. -/
theorem c7_prop_idempotent_after_reset
    (sig : ℚ → ℚ → ℚ) (net : Network) (rank : Nat → Nat)
    (hr : rankOK net rank) (hal : ioAligned net)
    (f1 f2 : Nat) (ins : List ℚ) (v1 v2 : Nat → ℚ)
    (h1 : Network.prop sig net f1 ins Network.reset = some v1)
    (h2 : Network.prop sig net f2 ins v1 = some v2) :
    Network.get_outputs net v1 = Network.get_outputs net v2 := by
  unfold Network.prop at h1 h2
  by_cases hlen : ins.length = net.inputs
  case neg =>
    rw [if_neg hlen] at h1
    exact Option.noConfusion h1
  rw [if_pos hlen] at h1 h2
  cases hs1 : Network.set_inputs_go net.nodes 0 ins Network.reset with
  | none =>
    simp only [hs1] at h1
    exact Option.noConfusion h1
  | some a1 =>
    cases hs2 : Network.set_inputs_go net.nodes 0 ins v1 with
    | none =>
      simp only [hs2] at h2
      exact Option.noConfusion h2
    | some a2 =>
      simp only [hs1] at h1
      simp only [hs2] at h2
      have hagin : ∀ k ∈ List.range net.inputs, a1 k = a2 k := by
        intro k hk
        have hklt : k < net.inputs := List.mem_range.mp hk
        refine set_inputs_go_agree net.nodes ins 0 Network.reset v1 a1 a2 hs1 hs2 k
          (Or.inr ⟨k, Nat.zero_le k, by omega, ?_⟩)
        exact hal k (by omega)
      have hout := prop_go_cong sig net rank hr (List.range' net.inputs net.outputs)
        f1 f2 a1 a2 (List.range net.inputs) v1 v2 hagin h1 h2
      unfold Network.get_outputs
      refine List.map_congr_left ?_
      intro p hp
      exact hout p.1 (Or.inr (get_outputs_keys net hal p hp))

/-- Counterexample to c7 as stated: on the cyclic compiled network
`cNetCyc` (= `Network::new` of the cyclic genome), `reset` followed by two
successive `prop [1]` calls reads output `[3]` the first time and `[5]` the
second — the in-cycle node keeps its stale value from the first call, so the
outputs are *not* identical for every compiled network. -/
theorem c7_counterexample :
    Network.new cGenomeCyc = some cNetCyc ∧
    (Network.prop cSig cNetCyc 6 [1] Network.reset).isSome = true ∧
    (Network.prop cSig cNetCyc 6 [1]
      ((Network.prop cSig cNetCyc 6 [1] Network.reset).getD Network.reset)).isSome = true ∧
    Network.get_outputs cNetCyc
      ((Network.prop cSig cNetCyc 6 [1] Network.reset).getD Network.reset) = [3] ∧
    Network.get_outputs cNetCyc
      ((Network.prop cSig cNetCyc 6 [1]
        ((Network.prop cSig cNetCyc 6 [1] Network.reset).getD Network.reset)).getD
          Network.reset) = [5] ∧
    Network.get_outputs cNetCyc
        ((Network.prop cSig cNetCyc 6 [1] Network.reset).getD Network.reset) ≠
      Network.get_outputs cNetCyc
        ((Network.prop cSig cNetCyc 6 [1]
          ((Network.prop cSig cNetCyc 6 [1] Network.reset).getD Network.reset)).getD
            Network.reset) := by
  have h3 : Network.get_outputs cNetCyc
      ((Network.prop cSig cNetCyc 6 [1] Network.reset).getD Network.reset) = [3] := by
    norm_num [Network.prop, Network.prop_go, Network.eval, Network.go_edges,
      Network.set_inputs_go, Network.get_outputs, Network.reset, updF, cSig, cNetCyc,
      imLookup, List.range, List.range', List.range.loop]
  have h5 : Network.get_outputs cNetCyc
      ((Network.prop cSig cNetCyc 6 [1]
        ((Network.prop cSig cNetCyc 6 [1] Network.reset).getD Network.reset)).getD
          Network.reset) = [5] := by
    norm_num [Network.prop, Network.prop_go, Network.eval, Network.go_edges,
      Network.set_inputs_go, Network.get_outputs, Network.reset, updF, cSig, cNetCyc,
      imLookup, List.range, List.range', List.range.loop]
  refine ⟨by decide, by decide, by decide, h3, h5, ?_⟩
  rw [h3, h5]
  decide

/-- Concrete witness for c7: the acyclic network `cNetFF` with its
topological rank; two successive `prop [1]` runs after reset read the same
outputs. -/
theorem c7_prop_idempotent_after_reset_witness :
    Network.get_outputs cNetFF
        ((Network.prop cSig cNetFF 5 [1] Network.reset).getD Network.reset) =
      Network.get_outputs cNetFF
        ((Network.prop cSig cNetFF 5 [1]
          ((Network.prop cSig cNetFF 5 [1] Network.reset).getD Network.reset)).getD
            Network.reset) := by
  have h1 : Network.prop cSig cNetFF 5 [1] Network.reset =
      some ((Network.prop cSig cNetFF 5 [1] Network.reset).getD Network.reset) :=
    isSome_eq_some_getD _ _ (by decide)
  have h2 : Network.prop cSig cNetFF 5 [1]
        ((Network.prop cSig cNetFF 5 [1] Network.reset).getD Network.reset) =
      some ((Network.prop cSig cNetFF 5 [1]
        ((Network.prop cSig cNetFF 5 [1] Network.reset).getD Network.reset)).getD
          Network.reset) :=
    isSome_eq_some_getD _ _ (by decide)
  exact c7_prop_idempotent_after_reset cSig cNetFF cRank (by decide) (by decide)
    5 5 [1] _ _ h1 h2
